import Mathlib

/-!
Verification of the ROAR preprocessing core (src/roar/preprocessing/load_data.py).

The development shallow-embeds, directly from the source:

* the filename grammar of load_data — the compiled pattern
  track(?P<track>\d+)_(?P<vehicle>[^_]+)_tyre(?P<tyre>\d+)(?:_[^_]+)*?_
  (?P<measure>(?:meas\d+|vr\d+)(?:_b\d+)?)(?:_[^_]+)*?_
  (?P<date>\d{4}-\d{2}-\d{2}_\d{2}-\d{2}-\d{2})  anchored on both ends —
  as a backtracking matcher over lists of characters that mirrors the pattern
  construct by construct (lazy stars try the continuation first; the optional
  group is greedy; alternatives are tried left to right);
* the strptime validation of the captured date group;
* get_channel_mapping_dict, the synonym-table to mapping-dict builder;
* an h5py file model (association list of channel name to payload) together
  with load_h5_fix_channel_names, h5_with_fixed_channels and load_h5_channel.

Character classes in the pattern are embedded by maximal munch: every \d+ and
[^_]+ in this pattern is followed by a mandatory character excluded from the
class (an underscore or a dash), so a shorter, backtracked match always fails
at that next character and greedy backtracking coincides with maximal munch.
-/

namespace Roar

/-- ASCII decimal digit: the class \d (measurement stems use ASCII digits). -/
def isDigitB (c : Char) : Bool := ('0' ≤ c) && (c ≤ '9')

/-- The class [^_]. -/
def notU (c : Char) : Bool := !(c = '_')

/-- Longest prefix of characters satisfying p, with the rest of the input:
one maximal-munch step of a character class. -/
def spanP (p : Char → Bool) : List Char → List Char × List Char
  | [] => ([], [])
  | c :: cs =>
    if p c then ((c :: (spanP p cs).1), (spanP p cs).2)
    else ([], c :: cs)

/-- Match a literal character sequence at the head of the input, returning
the rest of the input. -/
def dropLit : List Char → List Char → Option (List Char)
  | [], l => some l
  | _ :: _, [] => none
  | p :: ps, c :: cs => if p = c then dropLit ps cs else none

/-- Greedy \d+ : at least one digit, maximal munch. -/
def digits1 (l : List Char) : Option (List Char × List Char) :=
  if ((spanP isDigitB l).1).isEmpty then none else some (spanP isDigitB l)

/-- Fixed-shape matcher for the date group: none stands for \d, some c for
the literal character c; the whole input must be consumed. -/
def matchFmt : List (Option Char) → List Char → Bool
  | [], [] => true
  | none :: fs, c :: cs => isDigitB c && matchFmt fs cs
  | some f :: fs, c :: cs => (f = c) && matchFmt fs cs
  | _, _ => false

/-- \d{4}-\d{2}-\d{2} -/
def fmtYmd : List (Option Char) :=
  [none, none, none, none, some '-', none, none, some '-', none, none]

/-- \d{2}-\d{2}-\d{2} -/
def fmtHms : List (Option Char) :=
  [none, none, some '-', none, none, some '-', none, none]

/-- (?P<date>\d{4}-\d{2}-\d{2}_\d{2}-\d{2}-\d{2}) -/
def dateFmt : List (Option Char) := fmtYmd ++ some '_' :: fmtHms

/-- The date group followed by the anchor: succeeds exactly when the whole
remaining input is the date, returning the captured date characters. -/
def matchDateEnd (l : List Char) : Option (List Char) :=
  if matchFmt dateFmt l then some l else none

/-- vr\d+, the second alternative of the measure group. -/
def vrCore (l : List Char) : Option (List Char × List Char) :=
  match dropLit ['v', 'r'] l with
  | some r =>
    match digits1 r with
    | some p => some (['v', 'r'] ++ p.1, p.2)
    | none => none
  | none => none

/-- (?:meas\d+|vr\d+) : the meas alternative is tried first, exactly as the
pattern orders its alternatives (their first characters differ, so trying
the other alternative after a partial failure cannot succeed either way). -/
def measCore (l : List Char) : Option (List Char × List Char) :=
  match dropLit ['m', 'e', 'a', 's'] l with
  | some r =>
    match digits1 r with
    | some p => some (['m', 'e', 'a', 's'] ++ p.1, p.2)
    | none => vrCore l
  | none => vrCore l

/-- The optional (?:_b\d+) suffix of the measure group. -/
def bPart (l : List Char) : Option (List Char × List Char) :=
  match l with
  | u :: b :: rest =>
    if u = '_' && b = 'b' then
      match digits1 rest with
      | some p => some ('_' :: 'b' :: p.1, p.2)
      | none => none
    else none
  | _ => none

/-- (?:_[^_]+)*?_(?P<date>...)$ — the lazy token run between the measure
group and the date. Lazy star: at each underscore the date alternative is
tried before one more _[^_]+ segment is consumed. Returns the consumed free
tokens and the captured date. Fuel-indexed for structural recursion: every
recursive step consumes at least two characters, so fuel = input length is
always sufficient (see the adequacy lemmas below). -/
def tailRunF : Nat → List Char → Option (List (List Char) × List Char)
  | _, [] => none
  | 0, _ :: _ => none
  | Nat.succ n, c :: rest =>
    if c = '_' then
      match matchDateEnd rest with
      | some d => some ([], d)
      | none =>
        if ((spanP notU rest).1).isEmpty then none
        else
          match tailRunF n ((spanP notU rest).2) with
          | some q => some ((spanP notU rest).1 :: q.1, q.2)
          | none => none
    else none

def tailRun (l : List Char) : Option (List (List Char) × List Char) :=
  tailRunF l.length l

/-- (?P<measure>(?:meas\d+|vr\d+)(?:_b\d+)?) followed by the post-measure run
and the date. The optional _b\d+ is greedy: it is attached first, and dropped
again (backtracking) when the remainder of the pattern fails with it. -/
def measPlus (l : List Char) : Option (List Char × List (List Char) × List Char) :=
  match measCore l with
  | none => none
  | some p =>
    match bPart p.2 with
    | some q =>
      match tailRun q.2 with
      | some t => some (p.1 ++ q.1, t.1, t.2)
      | none =>
        match tailRun p.2 with
        | some t => some (p.1, t.1, t.2)
        | none => none
    | none =>
      match tailRun p.2 with
      | some t => some (p.1, t.1, t.2)
      | none => none

/-- (?:_[^_]+)*?_(?P<measure>...)... — the lazy token run between the tyre
group and the measure group: at each underscore the measure group (with the
whole rest of the pattern behind it) is tried first, and only when that whole
remainder fails is one more _[^_]+ segment consumed. Returns the tokens
consumed by this star, the measure capture, the tokens consumed by the
post-measure star, and the date capture. Fuel-indexed as tailRunF. -/
def measSearchF :
    Nat → List Char → Option (List (List Char) × List Char × List (List Char) × List Char)
  | _, [] => none
  | 0, _ :: _ => none
  | Nat.succ n, c :: rest =>
    if c = '_' then
      match measPlus rest with
      | some q => some ([], q)
      | none =>
        if ((spanP notU rest).1).isEmpty then none
        else
          match measSearchF n ((spanP notU rest).2) with
          | some q => some ((spanP notU rest).1 :: q.1, q.2)
          | none => none
    else none

def measSearch (l : List Char) :
    Option (List (List Char) × List Char × List (List Char) × List Char) :=
  measSearchF l.length l

/-- Result of a full match of the pattern: the five named groups, plus the
tokens consumed by the two non-capturing lazy stars (not captured by the
source pattern; recorded here so that anchoring can be stated). -/
structure RawMatch where
  track : List Char
  vehicle : List Char
  tyre : List Char
  pre : List (List Char)
  measure : List Char
  post : List (List Char)
  date : List Char
deriving DecidableEq, Repr

/-- pattern.match(stem) for the compiled pattern of load_data, construct by
construct: the literal track, the track digits, an underscore, the vehicle
class [^_]+, the literal _tyre, the tyre digits, then the two lazy stars
around the measure group and the anchored date (measSearch). -/
def patternMatch (stem : List Char) : Option RawMatch :=
  match dropLit ['t', 'r', 'a', 'c', 'k'] stem with
  | none => none
  | some r0 =>
    match digits1 r0 with
    | none => none
    | some p1 =>
      match p1.2 with
      | [] => none
      | c :: r2 =>
        if c = '_' then
          if ((spanP notU r2).1).isEmpty then none
          else
            match dropLit ['_', 't', 'y', 'r', 'e'] ((spanP notU r2).2) with
            | none => none
            | some r4 =>
              match digits1 r4 with
              | none => none
              | some p5 =>
                match measSearch p5.2 with
                | none => none
                | some q => some ⟨p1.1, (spanP notU r2).1, p5.1, q.1, q.2.1, q.2.2.1, q.2.2.2⟩
        else none

/-- Numeric value of a digit string, as int() computes it. -/
def natOfDigits (l : List Char) : Nat :=
  l.foldl (fun n c => 10 * n + (c.toNat - 48)) 0

structure DateTimeV where
  year : Nat
  month : Nat
  day : Nat
  hour : Nat
  minute : Nat
  second : Nat
deriving DecidableEq, Repr

def isLeap (y : Nat) : Bool := (y % 4 = 0) && (!(y % 100 = 0) || (y % 400 = 0))

def daysInMonth (y m : Nat) : Nat :=
  if m = 2 then (if isLeap y then 29 else 28)
  else if m = 4 || m = 6 || m = 9 || m = 11 then 30
  else 31

/-- datetime.strptime(s, "%Y-%m-%d_%H-%M-%S") on a string of the shape
produced by the date group: the field values must form a real calendar
date-time (month 1..12, day within the month, hour below 24, minute and
second below 60, year at least 1), otherwise strptime / the datetime
constructor raises ValueError. -/
def strptimeYmdHms (l : List Char) : Option DateTimeV :=
  if matchFmt dateFmt l then
    if 1 ≤ natOfDigits (l.take 4) && 1 ≤ natOfDigits ((l.drop 5).take 2)
        && natOfDigits ((l.drop 5).take 2) ≤ 12
        && 1 ≤ natOfDigits ((l.drop 8).take 2)
        && natOfDigits ((l.drop 8).take 2)
            ≤ daysInMonth (natOfDigits (l.take 4)) (natOfDigits ((l.drop 5).take 2))
        && natOfDigits ((l.drop 11).take 2) ≤ 23
        && natOfDigits ((l.drop 14).take 2) ≤ 59
        && natOfDigits ((l.drop 17).take 2) ≤ 59 then
      some ⟨natOfDigits (l.take 4), natOfDigits ((l.drop 5).take 2),
            natOfDigits ((l.drop 8).take 2), natOfDigits ((l.drop 11).take 2),
            natOfDigits ((l.drop 14).take 2), natOfDigits ((l.drop 17).take 2)⟩
    else none
  else none

/-- The two ValueError shapes _parse_filename can raise: the explicit
raise for a stem the pattern rejects (its message carries the stem), and the
ValueError propagated from datetime.strptime for a captured date group that
is not a real date-time. -/
inductive LoadError where
  | malformedName (stem : String)
  | badDate (s : String)
deriving DecidableEq, Repr

/-- The per-file record dict built by _parse_filename. -/
structure FileRecord where
  file_path : String
  file_stem : String
  vehicle : String
  tyre_ID : Nat
  track_ID : Nat
  measure : String
  date : DateTimeV
deriving DecidableEq, Repr

/-- The two pathlib.Path observations load_data makes of a discovered file:
str(filename) and filename.stem. -/
structure PathF where
  path : String
  stem : String
deriving DecidableEq, Repr

/-- _parse_filename: match the stem against the pattern, raising (modeled as
Except.error) with the offending stem when it does not match; otherwise build
the record from the named groups, parsing the date group with strptime. -/
def parse_filename (f : PathF) : Except LoadError FileRecord :=
  match patternMatch f.stem.toList with
  | none => .error (.malformedName f.stem)
  | some r =>
    match strptimeYmdHms r.date with
    | none => .error (.badDate (String.mk r.date))
    | some dt =>
      .ok ⟨f.path, f.stem, String.mk r.vehicle, natOfDigits r.tyre, natOfDigits r.track,
           String.mk r.measure, dt⟩

/-- A Python list comprehension over a fallible body: elements are evaluated
left to right and the first raise aborts the whole comprehension. -/
def mapExcept {α β ε : Type} (g : α → Except ε β) : List α → Except ε (List β)
  | [] => .ok []
  | x :: xs =>
    match g x with
    | .error e => .error e
    | .ok y =>
      match mapExcept g xs with
      | .error e => .error e
      | .ok ys => .ok (y :: ys)

/-- load_data restricted to its per-file logic: parsed = [_parse_filename(f)
for f in h5_files]; the discovered file list is the input. -/
def load_data (h5_files : List PathF) : Except LoadError (List FileRecord) :=
  mapExcept parse_filename h5_files

/-- One row of the reference table all_measurement_channels_name.csv as
to_dicts() delivers it after the select: channel_name plus the synonym
column of the current pass (None when null). -/
structure MappingRow where
  channel_name : String
  synonym_1 : Option String
  synonym_2 : Option String
deriving DecidableEq, Repr

/-- Python dict assignment d[k] = v: replace the value of an existing key in
place or append a new key at the end. -/
def dictInsert (d : List (String × String)) (k v : String) : List (String × String) :=
  match d with
  | [] => [(k, v)]
  | p :: rest => if p.1 = k then (k, v) :: rest else p :: dictInsert rest k v

/-- Python dict lookup / containment. -/
def mapLookup (d : List (String × String)) (k : String) : Option String :=
  match d with
  | [] => none
  | p :: rest => if p.1 = k then some p.2 else mapLookup rest k

/-- One column pass of get_channel_mapping_dict: the rows are filtered to
those whose synonym column is not null and walked in order. For each row the
source tests membership of the synonym value in the ROW dict d — whose keys
are exactly "channel_name" and the synonym column name — before inserting
synonym -> channel_name into syn_dict; the raise is a KeyError. -/
def colPass (colName : String) (get : MappingRow → Option String)
    (rows : List MappingRow) (syn_dict : List (String × String)) :
    Except String (List (String × String)) :=
  match rows with
  | [] => .ok syn_dict
  | row :: rest =>
    match get row with
    | none => colPass colName get rest syn_dict
    | some syn =>
      if syn = "channel_name" || syn = colName then
        .error ("Key " ++ syn ++ " already exists.")
      else colPass colName get rest (dictInsert syn_dict syn row.channel_name)

/-- get_channel_mapping_dict: the synonym_1 pass over all rows, then the
synonym_2 pass, accumulating into one dict. -/
def get_channel_mapping_dict (rows : List MappingRow) :
    Except String (List (String × String)) :=
  match colPass "synonym_1" (fun r => r.synonym_1) rows [] with
  | .error e => .error e
  | .ok d1 => colPass "synonym_2" (fun r => r.synonym_2) rows d1

/-- An open h5 file: named top-level datasets, each carrying a payload of
type alpha (payload plus attached attributes, copied and deleted as a unit
by h5py copy / del, which is all the normalizer does with them). -/
structure H5File (α : Type) where
  channels : List (String × α)
deriving DecidableEq, Repr

def h5keys {α : Type} (f : H5File α) : List String := f.channels.map Prod.fst

def getA {α : Type} : List (String × α) → String → Option α
  | [], _ => none
  | p :: rest, k => if p.1 = k then some p.2 else getA rest k

def h5get {α : Type} (f : H5File α) (k : String) : Option α :=
  getA f.channels k

def h5add {α : Type} (f : H5File α) (k : String) (v : α) : H5File α :=
  ⟨f.channels ++ [(k, v)]⟩

def h5del {α : Type} (f : H5File α) (k : String) : H5File α :=
  ⟨f.channels.filter (fun p => !(p.1 = k))⟩

/-- One iteration of the rename loop of load_h5_fix_channel_names:
h5py copy(old, new) raises when the destination name already exists (and when
the source is missing), the except branch swallows the exception and the
channel is skipped; otherwise the dataset is copied — payload and attributes
as a unit — to the new name and the old name is deleted. -/
def renameStep {α : Type} (st : H5File α) (old nw : String) : H5File α :=
  if nw ∈ h5keys st then st
  else
    match h5get st old with
    | none => st
    | some v => h5del (h5add st nw v) old

/-- The for-loop over keys_to_rename (a list fixed before the loop starts).
The lookup cannot miss: keys_to_rename holds only keys of the mapping. -/
def renameLoop {α : Type} (m : List (String × String)) (st : H5File α) :
    List String → H5File α
  | [] => st
  | old :: rest =>
    match mapLookup m old with
    | none => renameLoop m st rest
    | some nw => renameLoop m (renameStep st old nw) rest

/-- keys_to_rename = [key for key in h5_file.keys() if key in mapping]. -/
def keys_to_rename {α : Type} (f : H5File α) (m : List (String × String)) : List String :=
  (h5keys f).filter (fun k => (mapLookup m k).isSome)

/-- load_h5_fix_channel_names on the content of an open r+ handle. -/
def load_h5_fix_channel_names {α : Type} (f : H5File α) (m : List (String × String)) :
    H5File α :=
  renameLoop m f (keys_to_rename f m)

/-- Modeled from h5py: content visible through (and left on disk by) opening
an EXISTING file in the given mode. "r", "r+" and "a" keep the content; "w"
truncates the file to an empty one at open time; "w-"/"x" refuse to open an
existing file; any other mode string is rejected by h5py.File. -/
def h5pyOpenContent {α : Type} (f : H5File α) (mode : String) : Except String (H5File α) :=
  if mode = "r" || mode = "r+" || mode = "a" then .ok f
  else if mode = "w" then .ok ⟨[]⟩
  else if mode = "w-" || mode = "x" then .error "unable to create file, already exists"
  else .error "invalid mode"

/-- Modeled from h5py: every open mode except plain read-only "r" permits
writing through the returned handle ("r+", "a", "w", "w-", "x"). -/
def modePermitsWriting (mode : String) : Bool :=
  mode = "r+" || mode = "a" || mode = "w" || mode = "w-" || mode = "x"

/-- The file state h5_with_fixed_channels establishes before yielding the
handle (handle content = on-disk content): for mode "r+" or "a" it calls
load_h5_fix_channel_names, which itself opens the file with mode "r+";
for every other mode it opens the file with the requested mode, renaming
nothing. -/
def h5_with_fixed_channels_state {α : Type} (disk : H5File α)
    (m : List (String × String)) (mode : String) : Except String (H5File α) :=
  if mode = "r+" || mode = "a" then
    match h5pyOpenContent disk "r+" with
    | .error e => .error e
    | .ok g => .ok (load_h5_fix_channel_names g m)
  else h5pyOpenContent disk mode

/-- The three ways the caller's with-block can leave the context manager. -/
inductive BodyOutcome (β : Type) where
  | normal (b : β)
  | raised (msg : String)
  | earlyReturn (b : β)
deriving DecidableEq, Repr

structure ScopeRun (β : Type) where
  outcome : BodyOutcome β
  handleClosed : Bool
deriving DecidableEq, Repr

/-- The try: yield h5_file / finally: h5_file.close() of
h5_with_fixed_channels, as seen by a caller whose block produces the given
outcome: contextlib runs the finally block — the close — when the block
finishes normally, when it raises, and when it returns early; each branch
below is one of those exits. When the open itself fails no handle exists and
the error propagates. -/
def h5_with_fixed_channels_run {α β : Type} (disk : H5File α)
    (m : List (String × String)) (mode : String)
    (body : H5File α → BodyOutcome β) : Except String (ScopeRun β) :=
  match h5_with_fixed_channels_state disk m mode with
  | .error e => .error e
  | .ok handle =>
    match body handle with
    | .normal b => .ok ⟨.normal b, true⟩
    | .raised e => .ok ⟨.raised e, true⟩
    | .earlyReturn b => .ok ⟨.earlyReturn b, true⟩

/-- A stored numpy payload: one- or two-dimensional. A two-dimensional array
is a list of rows (all of one length; numpy arrays are rectangular). -/
inductive NDArray where
  | d1 (xs : List Int)
  | d2 (rows : List (List Int))
deriving DecidableEq, Repr

/-- A sample_rate attribute value: a plain scalar or a numpy array. -/
inductive RateAttr where
  | scalar (r : Int)
  | array (xs : List Int)
deriving DecidableEq, Repr

/-- A channel as load_h5_channel reads it: payload and the optional
sample_rate attribute. -/
structure Channel where
  data : NDArray
  sample_rate : Option RateAttr
deriving DecidableEq, Repr

def ndim : NDArray → Nat
  | .d1 _ => 1
  | .d2 _ => 2

def shape0 : NDArray → Nat
  | .d1 xs => xs.length
  | .d2 rows => rows.length

/-- shape[1] of a rectangular two-dimensional array (row length; the arrays
read here are nonempty datasets, so the first row determines it). -/
def shape1 : NDArray → Nat
  | .d1 _ => 0
  | .d2 rows => (rows.headD []).length

/-- numpy flatten on the payloads at hand: row-major concatenation. -/
def flattenA : NDArray → NDArray
  | .d1 xs => .d1 xs
  | .d2 rows => .d1 rows.flatten

structure ExtractResult where
  disk : H5File Channel
  data : Option NDArray
  rate : Option Int
deriving DecidableEq, Repr

/-- load_h5_channel: always opens through h5_with_fixed_channels with mode
"r+" — which fails when the file cannot be opened for writing (the writable
flag models file-system write permission) and otherwise first runs the
channel normalizer. If the requested channel is present its payload is read;
a two-dimensional payload with a single row or a single column is flattened;
a sample_rate attribute that is a numpy array is unwrapped with .item(),
which raises unless the array has exactly one element. If the channel is
absent the function returns (None, None). The final on-disk state is
carried in the result. -/
def load_h5_channel (disk : H5File Channel) (writable : Bool)
    (m : List (String × String)) (channel_name : String) : Except String ExtractResult :=
  if !writable then .error "unable to open file, permission denied"
  else
    match h5get (load_h5_fix_channel_names disk m) channel_name with
    | none => .ok ⟨load_h5_fix_channel_names disk m, none, none⟩
    | some ch =>
      match ch.sample_rate with
      | none =>
        .ok ⟨load_h5_fix_channel_names disk m,
             some (if ndim ch.data = 2 && (shape0 ch.data = 1 || shape1 ch.data = 1) then
                     flattenA ch.data
                   else ch.data), none⟩
      | some (.scalar r) =>
        .ok ⟨load_h5_fix_channel_names disk m,
             some (if ndim ch.data = 2 && (shape0 ch.data = 1 || shape1 ch.data = 1) then
                     flattenA ch.data
                   else ch.data), some r⟩
      | some (.array xs) =>
        match xs with
        | [x] =>
          .ok ⟨load_h5_fix_channel_names disk m,
               some (if ndim ch.data = 2 && (shape0 ch.data = 1 || shape1 ch.data = 1) then
                       flattenA ch.data
                     else ch.data), some x⟩
        | _ => .error "can only convert an array of size 1 to a scalar"

/- Vocabulary for stating properties of the grammar (underscore-token view
of a stem). -/

/-- A free token: what one _[^_]+ segment of either lazy star can consume. -/
def freeTok (t : List Char) : Bool := !t.isEmpty && t.all notU

/-- A nonempty all-digit token. -/
def digitsTok (t : List Char) : Bool := !t.isEmpty && t.all isDigitB

/-- A complete measure core token: meas\d+ or vr\d+ filling a whole
underscore-delimited token. -/
def isMeasTok (t : List Char) : Bool :=
  (match dropLit ['m', 'e', 'a', 's'] t with
   | some r => digitsTok r
   | none => false) ||
  (match dropLit ['v', 'r'] t with
   | some r => digitsTok r
   | none => false)

/-- A complete b\d+ token (the second half of an attached _b\d+ suffix). -/
def isBTok (t : List Char) : Bool :=
  match t with
  | c :: r => (c = 'b') && digitsTok r
  | [] => false

/-- Join tokens with single underscores. -/
def uJoin : List (List Char) → List Char
  | [] => []
  | [t] => t
  | t :: ts => t ++ '_' :: uJoin ts

/-- A stem assembled from its grammatical parts: track digits, vehicle,
tyre digits, the free/measure tokens in the middle, and a two-token date. -/
def stemOf (a v b : List Char) (ts : List (List Char)) (d1 d2 : List Char) : List Char :=
  ['t', 'r', 'a', 'c', 'k'] ++ a ++ '_' :: v ++ ['_', 't', 'y', 'r', 'e'] ++ b ++
    '_' :: uJoin (ts ++ [d1, d2])

/-- The exact character span a successful match covers, rebuilt from the
groups (including the tokens the two lazy stars consumed): used to state
that the pattern is anchored on the whole stem. -/
def reconstructStem (r : RawMatch) : List Char :=
  ['t', 'r', 'a', 'c', 'k'] ++ r.track ++ '_' :: r.vehicle ++ ['_', 't', 'y', 'r', 'e'] ++
    r.tyre ++ '_' :: uJoin (r.pre ++ r.measure :: r.post ++ [r.date])



/-! ## Basic lemmas about the character-level combinators -/

theorem spanP_append_eq (p : Char → Bool) (l : List Char) :
    (spanP p l).1 ++ (spanP p l).2 = l := by
  induction l with
  | nil => rfl
  | cons c cs ih =>
    by_cases h : p c
    · simp [spanP, h, ih]
    · simp [spanP, h]

theorem spanP_snd_length (p : Char → Bool) (l : List Char) :
    ((spanP p l).2).length ≤ l.length := by
  induction l with
  | nil => simp [spanP]
  | cons c cs ih =>
    by_cases h : p c
    · simp only [spanP, h, if_true]
      exact Nat.le_succ_of_le ih
    · simp [spanP, h]

theorem spanP_full (p : Char → Bool) (t : List Char) (c0 : Char) (u : List Char)
    (ht : ∀ c ∈ t, p c = true) (hc : p c0 = false) :
    spanP p (t ++ c0 :: u) = (t, c0 :: u) := by
  induction t with
  | nil => simp [spanP, hc]
  | cons c t' ih =>
    have hc' : p c = true := ht c (by simp)
    have ih' := ih (fun x hx => ht x (by simp [hx]))
    simp [spanP, hc', ih']

theorem spanP_boundary (p : Char → Bool) (x : List Char) (c0 : Char) (u : List Char)
    (hc : p c0 = false) :
    spanP p (x ++ c0 :: u) = ((spanP p x).1, (spanP p x).2 ++ c0 :: u) := by
  induction x with
  | nil => simp [spanP, hc]
  | cons c x' ih =>
    by_cases h : p c
    · simp [spanP, h, ih]
    · simp [spanP, h]

theorem spanP_all_sat (p : Char → Bool) (l : List Char) :
    ∀ c ∈ (spanP p l).1, p c = true := by
  induction l with
  | nil => simp [spanP]
  | cons c cs ih =>
    by_cases h : p c
    · simp only [spanP, h, if_true]
      intro x hx
      rcases List.mem_cons.mp hx with h1 | h2
      · subst h1; exact h
      · exact ih x h2
    · simp [spanP, h]

theorem spanP_nil_snd (p : Char → Bool) (l : List Char) (h : (spanP p l).2 = []) :
    ∀ c ∈ l, p c = true := by
  have heq : (spanP p l).1 = l := by
    have h2 := spanP_append_eq p l
    rw [h, List.append_nil] at h2
    exact h2
  intro c hc
  exact spanP_all_sat p l c (by rw [heq]; exact hc)

theorem dropLit_append (p u : List Char) : dropLit p (p ++ u) = some u := by
  induction p with
  | nil => rfl
  | cons c ps ih => simp [dropLit, ih]

theorem dropLit_sound (p : List Char) : ∀ (l r : List Char), dropLit p l = some r → l = p ++ r := by
  induction p with
  | nil =>
    intro l r h
    simp only [dropLit, Option.some.injEq] at h
    simp [h]
  | cons c ps ih =>
    intro l r h
    cases l with
    | nil => simp [dropLit] at h
    | cons a l' =>
      by_cases hca : c = a
      · subst hca
        simp only [dropLit, if_pos rfl] at h
        simpa using ih l' r h
      · simp [dropLit, hca] at h

theorem dropLit_boundary (p : List Char) (hp : ∀ c ∈ p, ¬ c = '_') :
    ∀ (t u r : List Char), dropLit p (t ++ '_' :: u) = some r →
      ∃ t2, dropLit p t = some t2 ∧ r = t2 ++ '_' :: u := by
  induction p with
  | nil =>
    intro t u r h
    simp only [dropLit, Option.some.injEq] at h
    exact ⟨t, rfl, h.symm⟩
  | cons c ps ih =>
    intro t u r h
    cases t with
    | nil =>
      have hc : ¬ c = '_' := hp c (by simp)
      simp [dropLit, hc] at h
    | cons a t' =>
      by_cases hca : c = a
      · subst hca
        simp only [List.cons_append, dropLit, if_pos rfl] at h
        obtain ⟨t2, h1, h2⟩ := ih (fun x hx => hp x (by simp [hx])) t' u r h
        exact ⟨t2, by simp [dropLit, h1], h2⟩
      · simp [dropLit, hca] at h

theorem matchFmt_length : ∀ (fs : List (Option Char)) (cs : List Char),
    matchFmt fs cs = true → cs.length = fs.length := by
  intro fs
  induction fs with
  | nil =>
    intro cs h
    cases cs with
    | nil => rfl
    | cons c cs' => simp [matchFmt] at h
  | cons f fs' ih =>
    intro cs h
    cases cs with
    | nil => cases f <;> simp [matchFmt] at h
    | cons c cs' =>
      cases f with
      | none =>
        simp only [matchFmt, Bool.and_eq_true] at h
        simp [ih cs' h.2]
      | some fc =>
        simp only [matchFmt, Bool.and_eq_true] at h
        simp [ih cs' h.2]

theorem matchFmt_append (f1 f2 : List (Option Char)) (c1 c2 : List Char)
    (h1 : matchFmt f1 c1 = true) (h2 : matchFmt f2 c2 = true) :
    matchFmt (f1 ++ f2) (c1 ++ c2) = true := by
  induction f1 generalizing c1 with
  | nil =>
    cases c1 with
    | nil => simpa using h2
    | cons a b => simp [matchFmt] at h1
  | cons f fs ih =>
    cases c1 with
    | nil => cases f <;> simp [matchFmt] at h1
    | cons c cs =>
      cases f with
      | none =>
        simp only [matchFmt, Bool.and_eq_true] at h1
        simp only [List.cons_append, matchFmt, Bool.and_eq_true]
        exact ⟨h1.1, ih cs h1.2⟩
      | some fc =>
        simp only [matchFmt, Bool.and_eq_true] at h1
        simp only [List.cons_append, matchFmt, Bool.and_eq_true]
        exact ⟨h1.1, ih cs h1.2⟩

theorem matchFmt_head_digit (d : List Char) (h : matchFmt fmtYmd d = true) :
    ∃ c r, d = c :: r ∧ isDigitB c = true := by
  cases d with
  | nil => simp [matchFmt, fmtYmd] at h
  | cons c r =>
    simp only [fmtYmd, matchFmt, Bool.and_eq_true] at h
    exact ⟨c, r, rfl, h.1⟩

theorem uJoin_cons_ne (t : List Char) (ts : List (List Char)) (h : ts ≠ []) :
    uJoin (t :: ts) = t ++ '_' :: uJoin ts := by
  cases ts with
  | nil => exact absurd rfl h
  | cons u us => rfl

theorem uJoin_two (x y : List Char) : uJoin [x, y] = x ++ '_' :: y := rfl

theorem uJoin_append_two_length (ts : List (List Char)) (x y : List Char) :
    x.length + y.length + 1 ≤ (uJoin (ts ++ [x, y])).length := by
  induction ts with
  | nil =>
    simp [uJoin_two]
    omega
  | cons t ts' ih =>
    rw [List.cons_append, uJoin_cons_ne t (ts' ++ [x, y]) (by simp)]
    simp only [List.length_append, List.length_cons]
    omega

theorem isDigitB_ne_underscore (c : Char) (h : isDigitB c = true) : ¬ c = '_' := by
  intro he
  subst he
  exact absurd h (by decide)

theorem isDigitB_ne_b (c : Char) (h : isDigitB c = true) : ¬ c = 'b' := by
  intro he
  subst he
  exact absurd h (by decide)

theorem isDigitB_notU (c : Char) (h : isDigitB c = true) : notU c = true := by
  simp [notU, isDigitB_ne_underscore c h]

theorem freeTok_ne_nil (t : List Char) (h : freeTok t = true) : t ≠ [] := by
  intro he
  subst he
  simp [freeTok] at h

theorem freeTok_mem (t : List Char) (h : freeTok t = true) : ∀ c ∈ t, ¬ c = '_' := by
  simp only [freeTok, Bool.and_eq_true, List.all_eq_true] at h
  intro c hc
  have := h.2 c hc
  simpa [notU] using this

theorem freeTok_notU (t : List Char) (h : freeTok t = true) : ∀ c ∈ t, notU c = true := by
  simp only [freeTok, Bool.and_eq_true, List.all_eq_true] at h
  exact h.2

theorem digitsTok_ne_nil (t : List Char) (h : digitsTok t = true) : t ≠ [] := by
  intro he
  subst he
  simp [digitsTok] at h

theorem digitsTok_mem (t : List Char) (h : digitsTok t = true) : ∀ c ∈ t, isDigitB c = true := by
  simp only [digitsTok, Bool.and_eq_true, List.all_eq_true] at h
  exact h.2

/-! ## Fuel adequacy and one-step unfolding for the two lazy stars -/

theorem tailRunF_nil (n : Nat) : tailRunF n [] = none := by cases n <;> rfl

theorem tailRunF_mono : ∀ (n m : Nat) (l : List Char), l.length ≤ n → l.length ≤ m →
    tailRunF n l = tailRunF m l := by
  intro n
  induction n with
  | zero =>
    intro m l hn _
    have : l = [] := List.length_eq_zero.mp (Nat.le_zero.mp hn)
    subst this
    simp [tailRunF_nil]
  | succ n ih =>
    intro m l hn hm
    cases l with
    | nil => simp [tailRunF_nil]
    | cons c rest =>
      cases m with
      | zero => simp at hm
      | succ m' =>
        have hrn : rest.length ≤ n := by simpa using hn
        have hrm : rest.length ≤ m' := by simpa using hm
        simp only [tailRunF]
        rw [ih m' ((spanP notU rest).2) (le_trans (spanP_snd_length _ _) hrn)
            (le_trans (spanP_snd_length _ _) hrm)]

theorem tailRun_cons (c : Char) (rest : List Char) :
    tailRun (c :: rest) =
      (if c = '_' then
        match matchDateEnd rest with
        | some d => some ([], d)
        | none =>
          if ((spanP notU rest).1).isEmpty then none
          else
            match tailRun ((spanP notU rest).2) with
            | some q => some ((spanP notU rest).1 :: q.1, q.2)
            | none => none
      else none) := by
  show tailRunF (rest.length + 1) (c :: rest) = _
  simp only [tailRunF]
  rw [tailRunF_mono rest.length ((spanP notU rest).2).length ((spanP notU rest).2)
      (spanP_snd_length _ _) le_rfl]
  rfl

theorem tailRun_not_underscore (c : Char) (rest : List Char) (h : ¬ c = '_') :
    tailRun (c :: rest) = none := by
  rw [tailRun_cons]
  simp [h]

theorem measSearchF_nil (n : Nat) : measSearchF n [] = none := by cases n <;> rfl

theorem measSearchF_mono : ∀ (n m : Nat) (l : List Char), l.length ≤ n → l.length ≤ m →
    measSearchF n l = measSearchF m l := by
  intro n
  induction n with
  | zero =>
    intro m l hn _
    have : l = [] := List.length_eq_zero.mp (Nat.le_zero.mp hn)
    subst this
    simp [measSearchF_nil]
  | succ n ih =>
    intro m l hn hm
    cases l with
    | nil => simp [measSearchF_nil]
    | cons c rest =>
      cases m with
      | zero => simp at hm
      | succ m' =>
        have hrn : rest.length ≤ n := by simpa using hn
        have hrm : rest.length ≤ m' := by simpa using hm
        simp only [measSearchF]
        rw [ih m' ((spanP notU rest).2) (le_trans (spanP_snd_length _ _) hrn)
            (le_trans (spanP_snd_length _ _) hrm)]

theorem measSearch_cons (c : Char) (rest : List Char) :
    measSearch (c :: rest) =
      (if c = '_' then
        match measPlus rest with
        | some q => some ([], q)
        | none =>
          if ((spanP notU rest).1).isEmpty then none
          else
            match measSearch ((spanP notU rest).2) with
            | some q => some ((spanP notU rest).1 :: q.1, q.2)
            | none => none
      else none) := by
  show measSearchF (rest.length + 1) (c :: rest) = _
  simp only [measSearchF]
  rw [measSearchF_mono rest.length ((spanP notU rest).2).length ((spanP notU rest).2)
      (spanP_snd_length _ _) le_rfl]
  rfl



/-! ## Completion and characterization lemmas for the grammar embedding -/

theorem matchDateEnd_ok (d1 d2 : List Char)
    (h1 : matchFmt fmtYmd d1 = true) (h2 : matchFmt fmtHms d2 = true) :
    matchDateEnd (d1 ++ '_' :: d2) = some (d1 ++ '_' :: d2) := by
  have hfmt : matchFmt dateFmt (d1 ++ '_' :: d2) = true := by
    have h2' : matchFmt (some '_' :: fmtHms) ('_' :: d2) = true := by
      simp only [matchFmt, Bool.and_eq_true]
      exact ⟨by simp, h2⟩
    exact matchFmt_append fmtYmd (some '_' :: fmtHms) d1 ('_' :: d2) h1 h2'
  simp [matchDateEnd, hfmt]

theorem matchDateEnd_long (l : List Char) (h : ¬ l.length = 19) : matchDateEnd l = none := by
  cases hf : matchFmt dateFmt l with
  | false => simp [matchDateEnd, hf]
  | true =>
    have := matchFmt_length dateFmt l hf
    simp only [dateFmt, fmtYmd, fmtHms] at this
    simp at this
    omega

theorem tailRun_complete (vs : List (List Char)) (d1 d2 : List Char)
    (hvs : ∀ t ∈ vs, freeTok t = true)
    (h1 : matchFmt fmtYmd d1 = true) (h2 : matchFmt fmtHms d2 = true) :
    tailRun ('_' :: uJoin (vs ++ [d1, d2])) = some (vs, d1 ++ '_' :: d2) := by
  induction vs with
  | nil =>
    rw [List.nil_append, tailRun_cons, if_pos rfl, uJoin_two]
    rw [matchDateEnd_ok d1 d2 h1 h2]
  | cons t vs' ih =>
    have hfree : freeTok t = true := hvs t (by simp)
    rw [List.cons_append, uJoin_cons_ne t (vs' ++ [d1, d2]) (by simp), tailRun_cons, if_pos rfl]
    have hlen : ¬ (t ++ '_' :: uJoin (vs' ++ [d1, d2])).length = 19 := by
      have hd1 : d1.length = 10 := by
        have := matchFmt_length fmtYmd d1 h1
        simpa [fmtYmd] using this
      have hd2 : d2.length = 8 := by
        have := matchFmt_length fmtHms d2 h2
        simpa [fmtHms] using this
      have hu := uJoin_append_two_length vs' d1 d2
      have htl : 1 ≤ t.length := by
        have := freeTok_ne_nil t hfree
        cases t with
        | nil => exact absurd rfl this
        | cons a b => simp
      simp only [List.length_append, List.length_cons]
      omega
    rw [matchDateEnd_long _ hlen]
    have hspan : spanP notU (t ++ '_' :: uJoin (vs' ++ [d1, d2])) =
        (t, '_' :: uJoin (vs' ++ [d1, d2])) :=
      spanP_full notU t '_' _ (freeTok_notU t hfree) (by simp [notU])
    rw [hspan]
    have hne : ¬ t.isEmpty = true := by
      simp [List.isEmpty_iff, freeTok_ne_nil t hfree]
    rw [if_neg hne]
    rw [ih (fun s hs => hvs s (by simp [hs]))]

theorem isMeasTok_elim (t : List Char) (h : isMeasTok t = true) :
    (∃ r, dropLit ['m', 'e', 'a', 's'] t = some r ∧ digitsTok r = true) ∨
    (∃ r, dropLit ['v', 'r'] t = some r ∧ digitsTok r = true) := by
  simp only [isMeasTok, Bool.or_eq_true] at h
  rcases h with h | h
  · left
    cases hm : dropLit ['m', 'e', 'a', 's'] t with
    | none => rw [hm] at h; simp at h
    | some r => rw [hm] at h; exact ⟨r, rfl, h⟩
  · right
    cases hm : dropLit ['v', 'r'] t with
    | none => rw [hm] at h; simp at h
    | some r => rw [hm] at h; exact ⟨r, rfl, h⟩

theorem isMeasTok_of_meas (t r : List Char) (hd : dropLit ['m', 'e', 'a', 's'] t = some r)
    (hr : digitsTok r = true) : isMeasTok t = true := by
  simp only [isMeasTok, Bool.or_eq_true]
  left
  rw [hd]
  exact hr

theorem isMeasTok_of_vr (t r : List Char) (hd : dropLit ['v', 'r'] t = some r)
    (hr : digitsTok r = true) : isMeasTok t = true := by
  simp only [isMeasTok, Bool.or_eq_true]
  right
  rw [hd]
  exact hr

theorem digits1_full (r u : List Char) (hr : digitsTok r = true) :
    digits1 (r ++ '_' :: u) = some (r, '_' :: u) := by
  have hs : spanP isDigitB (r ++ '_' :: u) = (r, '_' :: u) :=
    spanP_full _ _ _ _ (digitsTok_mem r hr) (by decide)
  have hne : ¬ r.isEmpty = true := by
    simp [List.isEmpty_iff, digitsTok_ne_nil r hr]
  simp [digits1, hs, hne]

theorem measCore_full (t u : List Char) (h : isMeasTok t = true) :
    measCore (t ++ '_' :: u) = some (t, '_' :: u) := by
  rcases isMeasTok_elim t h with ⟨r, hd, hr⟩ | ⟨r, hd, hr⟩
  · have ht : t = ['m', 'e', 'a', 's'] ++ r := dropLit_sound _ _ _ hd
    subst ht
    have hd1 : dropLit ['m', 'e', 'a', 's'] ('m' :: 'e' :: 'a' :: 's' :: (r ++ '_' :: u)) =
        some (r ++ '_' :: u) := dropLit_append ['m', 'e', 'a', 's'] (r ++ '_' :: u)
    simp [measCore, hd1, digits1_full r u hr]
  · have ht : t = ['v', 'r'] ++ r := dropLit_sound _ _ _ hd
    subst ht
    have hd0 : dropLit ['m', 'e', 'a', 's'] ('v' :: 'r' :: (r ++ '_' :: u)) = none := by
      simp [dropLit]
    have hd1 : dropLit ['v', 'r'] ('v' :: 'r' :: (r ++ '_' :: u)) =
        some (r ++ '_' :: u) := dropLit_append ['v', 'r'] (r ++ '_' :: u)
    simp [measCore, vrCore, hd0, hd1, digits1_full r u hr]

theorem bPart_head (c : Char) (l : List Char) (h : ¬ c = '_') : bPart (c :: l) = none := by
  cases l with
  | nil => rfl
  | cons b rest => simp [bPart, h]

theorem vrCore_some (t u m rest : List Char)
    (h : vrCore (t ++ '_' :: u) = some (m, rest)) :
    ∃ t2, t = m ++ t2 ∧ rest = t2 ++ '_' :: u ∧ (t2 = [] → isMeasTok t = true) := by
  cases hd : dropLit ['v', 'r'] (t ++ '_' :: u) with
  | none =>
    simp only [vrCore, hd] at h
    exact absurd h (by simp)
  | some r =>
    obtain ⟨t2a, hdt, hr⟩ := dropLit_boundary ['v', 'r'] (by decide) t u r hd
    subst hr
    have ht : t = ['v', 'r'] ++ t2a := dropLit_sound _ _ _ hdt
    simp only [vrCore, hd] at h
    rw [digits1, spanP_boundary isDigitB t2a '_' u (by decide)] at h
    cases hemp : ((spanP isDigitB t2a).1).isEmpty with
    | true =>
      rw [hemp] at h
      simp at h
    | false =>
      rw [hemp] at h
      simp only [Bool.false_eq_true, if_false, Option.some.injEq, Prod.mk.injEq] at h
      refine ⟨(spanP isDigitB t2a).2, ?_, ?_, ?_⟩
      · rw [ht, ← h.1, List.append_assoc, spanP_append_eq]
      · rw [← h.2]
      · intro h2
        apply isMeasTok_of_vr t t2a hdt
        have hne : ¬ t2a = [] := by
          intro hnil
          rw [hnil] at hemp
          simp [spanP] at hemp
        simp only [digitsTok, Bool.and_eq_true, List.all_eq_true]
        exact ⟨by simp [List.isEmpty_iff, hne], spanP_nil_snd isDigitB t2a h2⟩

theorem measCore_some (t u m rest : List Char)
    (h : measCore (t ++ '_' :: u) = some (m, rest)) :
    ∃ t2, t = m ++ t2 ∧ rest = t2 ++ '_' :: u ∧ (t2 = [] → isMeasTok t = true) := by
  cases hd : dropLit ['m', 'e', 'a', 's'] (t ++ '_' :: u) with
  | none =>
    simp only [measCore, hd] at h
    exact vrCore_some t u m rest h
  | some r =>
    obtain ⟨t2a, hdt, hr⟩ := dropLit_boundary ['m', 'e', 'a', 's'] (by decide) t u r hd
    subst hr
    have ht : t = ['m', 'e', 'a', 's'] ++ t2a := dropLit_sound _ _ _ hdt
    simp only [measCore, hd] at h
    rw [digits1, spanP_boundary isDigitB t2a '_' u (by decide)] at h
    cases hemp : ((spanP isDigitB t2a).1).isEmpty with
    | true =>
      rw [hemp] at h
      simp only [if_true] at h
      exact vrCore_some t u m rest h
    | false =>
      rw [hemp] at h
      simp only [Bool.false_eq_true, if_false, Option.some.injEq, Prod.mk.injEq] at h
      refine ⟨(spanP isDigitB t2a).2, ?_, ?_, ?_⟩
      · rw [ht, ← h.1, List.append_assoc, spanP_append_eq]
      · rw [← h.2]
      · intro h2
        apply isMeasTok_of_meas t t2a hdt
        have hne : ¬ t2a = [] := by
          intro hnil
          rw [hnil] at hemp
          simp [spanP] at hemp
        simp only [digitsTok, Bool.and_eq_true, List.all_eq_true]
        exact ⟨by simp [List.isEmpty_iff, hne], spanP_nil_snd isDigitB t2a h2⟩



/-! ## The lazy measure search binds the first complete measure token -/

theorem measPlus_skip (t u : List Char) (hfree : freeTok t = true)
    (hnm : isMeasTok t = false) :
    measPlus (t ++ '_' :: u) = none := by
  cases hc : measCore (t ++ '_' :: u) with
  | none => simp [measPlus, hc]
  | some p =>
    obtain ⟨m, rest⟩ := p
    obtain ⟨t2, ht, hrest, himp⟩ := measCore_some t u m rest hc
    cases t2 with
    | nil =>
      rw [himp rfl] at hnm
      simp at hnm
    | cons c t2' =>
      have hcne : ¬ c = '_' := by
        apply freeTok_mem t hfree
        rw [ht]
        simp
      have hb : bPart rest = none := by
        rw [hrest, List.cons_append]
        exact bPart_head c _ hcne
      have htr : tailRun rest = none := by
        rw [hrest, List.cons_append]
        exact tailRun_not_underscore c _ hcne
      simp [measPlus, hc, hb, htr]

theorem measPlus_at (t : List Char) (ts : List (List Char)) (d1 d2 : List Char)
    (ht : isMeasTok t = true) (hts : ∀ s ∈ ts, freeTok s = true)
    (h1 : matchFmt fmtYmd d1 = true) (h2 : matchFmt fmtHms d2 = true) :
    measPlus (t ++ '_' :: uJoin (ts ++ [d1, d2])) =
      some (t ++ (if isBTok (ts.headD []) then '_' :: ts.headD [] else []),
            (if isBTok (ts.headD []) then ts.tail else ts),
            d1 ++ '_' :: d2) := by
  cases ts with
  | nil =>
    simp only [List.nil_append, List.headD_nil, List.tail_nil]
    have hbf : isBTok ([] : List Char) = false := rfl
    rw [hbf]
    simp only [Bool.false_eq_true, if_false, List.append_nil]
    obtain ⟨c, r, hd1c, hdig⟩ := matchFmt_head_digit d1 h1
    have hcore := measCore_full t (uJoin [d1, d2]) ht
    have hbn : bPart ('_' :: uJoin [d1, d2]) = none := by
      rw [uJoin_two, hd1c, List.cons_append]
      simp [bPart, isDigitB_ne_b c hdig]
    have htr : tailRun ('_' :: uJoin [d1, d2]) = some ([], d1 ++ '_' :: d2) := by
      have h0 := tailRun_complete [] d1 d2 (by simp) h1 h2
      simpa using h0
    simp only [measPlus, hcore, hbn, htr]
  | cons w ts' =>
    have hw : freeTok w = true := hts w (by simp)
    cases w with
    | nil => exact absurd rfl (freeTok_ne_nil [] hw)
    | cons c r =>
      simp only [List.cons_append, List.headD_cons, List.tail_cons]
      rw [uJoin_cons_ne (c :: r) (ts' ++ [d1, d2]) (by simp), List.cons_append]
      have hcore := measCore_full t (c :: (r ++ '_' :: uJoin (ts' ++ [d1, d2]))) ht
      have htr0 : tailRun ('_' :: c :: (r ++ '_' :: uJoin (ts' ++ [d1, d2]))) =
          some ((c :: r) :: ts', d1 ++ '_' :: d2) := by
        have h0 := tailRun_complete ((c :: r) :: ts') d1 d2 hts h1 h2
        rw [List.cons_append, uJoin_cons_ne (c :: r) (ts' ++ [d1, d2]) (by simp),
            List.cons_append] at h0
        exact h0
      by_cases hcb : c = 'b'
      · subst hcb
        cases hdr : digitsTok r with
        | true =>
          have hbt : isBTok ('b' :: r) = true := by simp [isBTok, hdr]
          rw [hbt]
          simp only [if_true]
          have hbs : bPart ('_' :: 'b' :: (r ++ '_' :: uJoin (ts' ++ [d1, d2]))) =
              some ('_' :: 'b' :: r, '_' :: uJoin (ts' ++ [d1, d2])) := by
            simp [bPart, digits1_full r (uJoin (ts' ++ [d1, d2])) hdr]
          have htr1 : tailRun ('_' :: uJoin (ts' ++ [d1, d2])) =
              some (ts', d1 ++ '_' :: d2) :=
            tailRun_complete ts' d1 d2 (fun s hs => hts s (by simp [hs])) h1 h2
          simp only [measPlus, hcore, hbs, htr1]
        | false =>
          have hbt : isBTok ('b' :: r) = false := by simp [isBTok, hdr]
          rw [hbt]
          simp only [Bool.false_eq_true, if_false, List.append_nil]
          cases hemp : ((spanP isDigitB r).1).isEmpty with
          | true =>
            have hds : digits1 (r ++ '_' :: uJoin (ts' ++ [d1, d2])) = none := by
              rw [digits1, spanP_boundary isDigitB r '_' _ (by decide), hemp]
              simp
            have hbn : bPart ('_' :: 'b' :: (r ++ '_' :: uJoin (ts' ++ [d1, d2]))) = none := by
              simp [bPart, hds]
            simp only [measPlus, hcore, hbn, htr0]
          | false =>
            have hds : digits1 (r ++ '_' :: uJoin (ts' ++ [d1, d2])) =
                some ((spanP isDigitB r).1,
                      (spanP isDigitB r).2 ++ '_' :: uJoin (ts' ++ [d1, d2])) := by
              rw [digits1, spanP_boundary isDigitB r '_' _ (by decide), hemp]
              simp
            have hbs : bPart ('_' :: 'b' :: (r ++ '_' :: uJoin (ts' ++ [d1, d2]))) =
                some ('_' :: 'b' :: (spanP isDigitB r).1,
                      (spanP isDigitB r).2 ++ '_' :: uJoin (ts' ++ [d1, d2])) := by
              simp [bPart, hds]
            have hsnd : ¬ (spanP isDigitB r).2 = [] := by
              intro hnil
              have hrne : ¬ r = [] := by
                intro hrn
                rw [hrn] at hemp
                simp [spanP] at hemp
              have hrd : digitsTok r = true := by
                simp only [digitsTok, Bool.and_eq_true, List.all_eq_true]
                exact ⟨by simp [List.isEmpty_iff, hrne], spanP_nil_snd isDigitB r hnil⟩
              rw [hrd] at hdr
              simp at hdr
            obtain ⟨c2, rest2, hc2⟩ : ∃ c2 rest2, (spanP isDigitB r).2 = c2 :: rest2 := by
              cases hx : (spanP isDigitB r).2 with
              | nil => exact absurd hx hsnd
              | cons a bb => exact ⟨a, bb, rfl⟩
            have hc2u : ¬ c2 = '_' := by
              apply freeTok_mem ('b' :: r) hw
              have h3 := spanP_append_eq isDigitB r
              rw [hc2] at h3
              rw [← h3]
              simp
            have htrb : tailRun ((spanP isDigitB r).2 ++ '_' :: uJoin (ts' ++ [d1, d2])) =
                none := by
              rw [hc2, List.cons_append]
              exact tailRun_not_underscore c2 _ hc2u
            simp only [measPlus, hcore, hbs, htrb, htr0]
      · have hbt : isBTok (c :: r) = false := by simp [isBTok, hcb]
        rw [hbt]
        simp only [Bool.false_eq_true, if_false, List.append_nil]
        have hbn : bPart ('_' :: c :: (r ++ '_' :: uJoin (ts' ++ [d1, d2]))) = none := by
          simp [bPart, hcb]
        simp only [measPlus, hcore, hbn, htr0]



theorem getD_zero_eq_headD (l : List (List Char)) : l.getD 0 [] = l.headD [] := by
  cases l <;> rfl

theorem measSearch_first (ts : List (List Char)) (d1 d2 : List Char)
    (h1 : matchFmt fmtYmd d1 = true) (h2 : matchFmt fmtHms d2 = true) :
    ∀ (i : Nat), (∀ s ∈ ts, freeTok s = true) → i < ts.length →
      isMeasTok (ts.getD i []) = true →
      (∀ j, j < i → isMeasTok (ts.getD j []) = false) →
      measSearch ('_' :: uJoin (ts ++ [d1, d2])) =
        some (ts.take i,
              (ts.getD i []) ++
                (if isBTok (ts.getD (i + 1) []) then '_' :: ts.getD (i + 1) [] else []),
              (if isBTok (ts.getD (i + 1) []) then ts.drop (i + 2) else ts.drop (i + 1)),
              d1 ++ '_' :: d2) := by
  induction ts with
  | nil =>
    intro i _ hi _ _
    simp at hi
  | cons t ts' ih =>
    intro i hts hi hm hfirst
    cases i with
    | zero =>
      have hmt : isMeasTok t = true := by simpa using hm
      have hmp := measPlus_at t ts' d1 d2 hmt (fun s hs => hts s (by simp [hs])) h1 h2
      rw [List.cons_append, uJoin_cons_ne t (ts' ++ [d1, d2]) (by simp), measSearch_cons]
      simp only [hmp, List.drop_one]
      cases ts' <;> simp
    | succ j =>
      have ht0 : isMeasTok t = false := by
        have h0 := hfirst 0 (Nat.succ_pos j)
        simpa using h0
      have htf : freeTok t = true := hts t (by simp)
      have hskip := measPlus_skip t (uJoin (ts' ++ [d1, d2])) htf ht0
      have hspan : spanP notU (t ++ '_' :: uJoin (ts' ++ [d1, d2])) =
          (t, '_' :: uJoin (ts' ++ [d1, d2])) :=
        spanP_full notU t '_' _ (freeTok_notU t htf) (by simp [notU])
      have hne : ¬ t.isEmpty = true := by
        simp [List.isEmpty_iff, freeTok_ne_nil t htf]
      have hih := ih j (fun s hs => hts s (by simp [hs])) (by simpa using hi)
          (by simpa using hm)
          (fun k hk => by
            have h0 := hfirst (k + 1) (by omega)
            simpa using h0)
      rw [List.cons_append, uJoin_cons_ne t (ts' ++ [d1, d2]) (by simp), measSearch_cons]
      simp [hskip, hspan, hne, hih]

theorem patternMatch_stemOf (a v b : List Char) (ts : List (List Char)) (d1 d2 : List Char)
    (i : Nat) (ha : digitsTok a = true) (hv : freeTok v = true) (hb : digitsTok b = true)
    (hts : ∀ s ∈ ts, freeTok s = true)
    (h1 : matchFmt fmtYmd d1 = true) (h2 : matchFmt fmtHms d2 = true)
    (hi : i < ts.length) (hm : isMeasTok (ts.getD i []) = true)
    (hfirst : ∀ j, j < i → isMeasTok (ts.getD j []) = false) :
    patternMatch (stemOf a v b ts d1 d2) =
      some ⟨a, v, b, ts.take i,
            (ts.getD i []) ++
              (if isBTok (ts.getD (i + 1) []) then '_' :: ts.getD (i + 1) [] else []),
            (if isBTok (ts.getD (i + 1) []) then ts.drop (i + 2) else ts.drop (i + 1)),
            d1 ++ '_' :: d2⟩ := by
  have hdigA : digits1
      (a ++ '_' :: (v ++ '_' :: 't' :: 'y' :: 'r' :: 'e' ::
        (b ++ '_' :: uJoin (ts ++ [d1, d2])))) =
      some (a, '_' :: (v ++ '_' :: 't' :: 'y' :: 'r' :: 'e' ::
        (b ++ '_' :: uJoin (ts ++ [d1, d2])))) :=
    digits1_full a _ ha
  have hspanV : spanP notU
      (v ++ '_' :: 't' :: 'y' :: 'r' :: 'e' :: (b ++ '_' :: uJoin (ts ++ [d1, d2]))) =
      (v, '_' :: 't' :: 'y' :: 'r' :: 'e' :: (b ++ '_' :: uJoin (ts ++ [d1, d2]))) :=
    spanP_full notU v '_' _ (freeTok_notU v hv) (by simp [notU])
  have hvne : ¬ v.isEmpty = true := by
    simp [List.isEmpty_iff, freeTok_ne_nil v hv]
  have hdropT : dropLit ['_', 't', 'y', 'r', 'e']
      ('_' :: 't' :: 'y' :: 'r' :: 'e' :: (b ++ '_' :: uJoin (ts ++ [d1, d2]))) =
      some (b ++ '_' :: uJoin (ts ++ [d1, d2])) :=
    dropLit_append ['_', 't', 'y', 'r', 'e'] (b ++ '_' :: uJoin (ts ++ [d1, d2]))
  have hdigB : digits1 (b ++ '_' :: uJoin (ts ++ [d1, d2])) =
      some (b, '_' :: uJoin (ts ++ [d1, d2])) :=
    digits1_full b _ hb
  have hms := measSearch_first ts d1 d2 h1 h2 i hts hi hm hfirst
  have hdropK : dropLit ['t', 'r', 'a', 'c', 'k']
      ('t' :: 'r' :: 'a' :: 'c' :: 'k' ::
        (a ++ '_' :: (v ++ '_' :: 't' :: 'y' :: 'r' :: 'e' ::
          (b ++ '_' :: uJoin (ts ++ [d1, d2]))))) =
      some (a ++ '_' :: (v ++ '_' :: 't' :: 'y' :: 'r' :: 'e' ::
        (b ++ '_' :: uJoin (ts ++ [d1, d2])))) :=
    dropLit_append ['t', 'r', 'a', 'c', 'k'] _
  have hvnil : ¬ v = [] := freeTok_ne_nil v hv
  simp [patternMatch, stemOf, hdropK, hdigA, hspanV, hvnil, hdropT, hdigB, hms]



/-! ## Soundness: a successful match spans exactly the whole stem -/

theorem digits1_sound (l : List Char) (q : List Char × List Char) (h : digits1 l = some q) :
    q.1 ++ q.2 = l := by
  rw [digits1] at h
  by_cases he : ((spanP isDigitB l).1).isEmpty = true
  · rw [if_pos he] at h
    simp at h
  · rw [if_neg he] at h
    simp only [Option.some.injEq] at h
    rw [← h]
    exact spanP_append_eq isDigitB l

theorem matchDateEnd_sound (l d : List Char) (h : matchDateEnd l = some d) : d = l := by
  rw [matchDateEnd] at h
  by_cases hf : matchFmt dateFmt l = true
  · rw [if_pos hf] at h
    simp only [Option.some.injEq] at h
    exact h.symm
  · rw [if_neg hf] at h
    simp at h

theorem vrCore_sound (l : List Char) (q : List Char × List Char) (h : vrCore l = some q) :
    q.1 ++ q.2 = l := by
  cases hd : dropLit ['v', 'r'] l with
  | none => simp [vrCore, hd] at h
  | some r =>
    simp only [vrCore, hd] at h
    cases hg : digits1 r with
    | none => rw [hg] at h; simp at h
    | some p =>
      rw [hg] at h
      obtain ⟨m, rest⟩ := q
      simp only [Option.some.injEq, Prod.mk.injEq] at h
      rw [← h.1, ← h.2, List.append_assoc, digits1_sound r p hg]
      exact (dropLit_sound _ _ _ hd).symm

theorem measCore_sound (l : List Char) (q : List Char × List Char) (h : measCore l = some q) :
    q.1 ++ q.2 = l := by
  cases hd : dropLit ['m', 'e', 'a', 's'] l with
  | none =>
    simp only [measCore, hd] at h
    exact vrCore_sound l q h
  | some r =>
    simp only [measCore, hd] at h
    cases hg : digits1 r with
    | none =>
      rw [hg] at h
      exact vrCore_sound l q h
    | some p =>
      rw [hg] at h
      obtain ⟨m, rest⟩ := q
      simp only [Option.some.injEq, Prod.mk.injEq] at h
      rw [← h.1, ← h.2, List.append_assoc, digits1_sound r p hg]
      exact (dropLit_sound _ _ _ hd).symm

theorem bPart_sound (l : List Char) (q : List Char × List Char) (h : bPart l = some q) :
    q.1 ++ q.2 = l := by
  cases l with
  | nil => simp [bPart] at h
  | cons c l1 =>
    cases l1 with
    | nil => simp [bPart] at h
    | cons b2 rest =>
      by_cases hc1 : c = '_'
      · subst hc1
        by_cases hc2 : b2 = 'b'
        · subst hc2
          cases hg : digits1 rest with
          | none => simp [bPart, hg] at h
          | some p =>
            obtain ⟨m, rest2⟩ := q
            simp [bPart, hg] at h
            rw [← h.1, ← h.2]
            simp only [List.cons_append]
            rw [digits1_sound rest p hg]
        · simp [bPart, hc2] at h
      · simp [bPart, hc1] at h

theorem tailRunF_sound : ∀ (n : Nat) (l : List Char) (q : List (List Char) × List Char),
    tailRunF n l = some q → l = '_' :: uJoin (q.1 ++ [q.2]) := by
  intro n
  induction n with
  | zero =>
    intro l q h
    cases l with
    | nil => rw [tailRunF_nil] at h; simp at h
    | cons c rest => simp [tailRunF] at h
  | succ n ih =>
    intro l q h
    cases l with
    | nil => rw [tailRunF_nil] at h; simp at h
    | cons c rest =>
      simp only [tailRunF] at h
      by_cases hc : c = '_'
      · subst hc
        rw [if_pos rfl] at h
        cases hd : matchDateEnd rest with
        | some d =>
          simp only [hd, Option.some.injEq] at h
          rw [← h]
          dsimp only
          rw [matchDateEnd_sound rest d hd]
          simp [uJoin]
        | none =>
          simp only [hd] at h
          by_cases he : ((spanP notU rest).1).isEmpty = true
          · rw [if_pos he] at h
            simp at h
          · rw [if_neg he] at h
            cases hr : tailRunF n ((spanP notU rest).2) with
            | none =>
              simp only [hr] at h
              simp at h
            | some q2 =>
              simp only [hr, Option.some.injEq] at h
              have hs := ih ((spanP notU rest).2) q2 hr
              have hgoal : rest = (spanP notU rest).1 ++ '_' :: uJoin (q2.1 ++ [q2.2]) := by
                rw [← hs]
                exact (spanP_append_eq notU rest).symm
              rw [← h]
              dsimp only
              simp only [List.cons_append]
              rw [uJoin_cons_ne ((spanP notU rest).1) (q2.1 ++ [q2.2]) (by simp), ← hgoal]
      · rw [if_neg hc] at h
        simp at h

theorem tailRun_sound (l : List Char) (q : List (List Char) × List Char)
    (h : tailRun l = some q) : l = '_' :: uJoin (q.1 ++ [q.2]) :=
  tailRunF_sound l.length l q h

theorem measPlus_sound (l : List Char) (q : List Char × List (List Char) × List Char)
    (h : measPlus l = some q) : l = q.1 ++ '_' :: uJoin (q.2.1 ++ [q.2.2]) := by
  cases hc : measCore l with
  | none => simp [measPlus, hc] at h
  | some p =>
    simp only [measPlus, hc] at h
    cases hb : bPart p.2 with
    | some bq =>
      simp only [hb] at h
      cases htq : tailRun bq.2 with
      | some t =>
        simp only [htq, Option.some.injEq] at h
        rw [← h]
        dsimp only
        have ha := measCore_sound l p hc
        have hbnd := bPart_sound p.2 bq hb
        have htl := tailRun_sound bq.2 t htq
        rw [← ha, ← hbnd, htl, List.append_assoc]
      | none =>
        simp only [htq] at h
        cases htp : tailRun p.2 with
        | none =>
          simp only [htp] at h
          simp at h
        | some t =>
          simp only [htp, Option.some.injEq] at h
          rw [← h]
          dsimp only
          have ha := measCore_sound l p hc
          have htl := tailRun_sound p.2 t htp
          rw [← ha, htl]
    | none =>
      simp only [hb] at h
      cases htp : tailRun p.2 with
      | none =>
        simp only [htp] at h
        simp at h
      | some t =>
        simp only [htp, Option.some.injEq] at h
        rw [← h]
        dsimp only
        have ha := measCore_sound l p hc
        have htl := tailRun_sound p.2 t htp
        rw [← ha, htl]

theorem measSearchF_sound : ∀ (n : Nat) (l : List Char)
    (q : List (List Char) × List Char × List (List Char) × List Char),
    measSearchF n l = some q →
      l = '_' :: uJoin (q.1 ++ q.2.1 :: (q.2.2.1 ++ [q.2.2.2])) := by
  intro n
  induction n with
  | zero =>
    intro l q h
    cases l with
    | nil => rw [measSearchF_nil] at h; simp at h
    | cons c rest => simp [measSearchF] at h
  | succ n ih =>
    intro l q h
    cases l with
    | nil => rw [measSearchF_nil] at h; simp at h
    | cons c rest =>
      simp only [measSearchF] at h
      by_cases hc : c = '_'
      · subst hc
        rw [if_pos rfl] at h
        cases hd : measPlus rest with
        | some pq =>
          simp only [hd, Option.some.injEq] at h
          rw [← h]
          dsimp only
          simp only [List.nil_append]
          rw [uJoin_cons_ne pq.1 (pq.2.1 ++ [pq.2.2]) (by simp)]
          rw [← measPlus_sound rest pq hd]
        | none =>
          simp only [hd] at h
          by_cases he : ((spanP notU rest).1).isEmpty = true
          · rw [if_pos he] at h
            simp at h
          · rw [if_neg he] at h
            cases hr : measSearchF n ((spanP notU rest).2) with
            | none =>
              simp only [hr] at h
              simp at h
            | some q2 =>
              simp only [hr, Option.some.injEq] at h
              have hs := ih ((spanP notU rest).2) q2 hr
              have hgoal : rest = (spanP notU rest).1 ++
                  '_' :: uJoin (q2.1 ++ q2.2.1 :: (q2.2.2.1 ++ [q2.2.2.2])) := by
                rw [← hs]
                exact (spanP_append_eq notU rest).symm
              rw [← h]
              dsimp only
              simp only [List.cons_append]
              rw [uJoin_cons_ne ((spanP notU rest).1)
                  (q2.1 ++ q2.2.1 :: (q2.2.2.1 ++ [q2.2.2.2])) (by simp), ← hgoal]
      · rw [if_neg hc] at h
        simp at h

theorem measSearch_sound (l : List Char)
    (q : List (List Char) × List Char × List (List Char) × List Char)
    (h : measSearch l = some q) :
    l = '_' :: uJoin (q.1 ++ q.2.1 :: (q.2.2.1 ++ [q.2.2.2])) :=
  measSearchF_sound l.length l q h

theorem patternMatch_sound (s : List Char) (r : RawMatch) (h : patternMatch s = some r) :
    s = reconstructStem r := by
  simp only [patternMatch] at h
  cases hd : dropLit ['t', 'r', 'a', 'c', 'k'] s with
  | none =>
    simp only [hd] at h
    exact Option.noConfusion h
  | some r0 =>
    simp only [hd] at h
    cases hg1 : digits1 r0 with
    | none =>
      simp only [hg1] at h
      exact Option.noConfusion h
    | some p1 =>
      simp only [hg1] at h
      cases hp2 : p1.2 with
      | nil =>
        simp only [hp2] at h
        exact Option.noConfusion h
      | cons c r2 =>
        simp only [hp2] at h
        by_cases hc : c = '_'
        · subst hc
          rw [if_pos rfl] at h
          by_cases he : ((spanP notU r2).1).isEmpty = true
          · rw [if_pos he] at h
            simp at h
          · rw [if_neg he] at h
            cases hd4 : dropLit ['_', 't', 'y', 'r', 'e'] ((spanP notU r2).2) with
            | none =>
              simp only [hd4] at h
              exact Option.noConfusion h
            | some r4 =>
              simp only [hd4] at h
              cases hg5 : digits1 r4 with
              | none =>
                simp only [hg5] at h
                exact Option.noConfusion h
              | some p5 =>
                simp only [hg5] at h
                cases hq : measSearch p5.2 with
                | none =>
                  simp only [hq] at h
                  exact Option.noConfusion h
                | some q =>
                  simp only [hq, Option.some.injEq] at h
                  have hs0 : s = ['t', 'r', 'a', 'c', 'k'] ++ r0 := dropLit_sound _ _ _ hd
                  have hr0 : p1.1 ++ p1.2 = r0 := digits1_sound r0 p1 hg1
                  obtain ⟨v1, v2, hv12⟩ : ∃ v1 v2, spanP notU r2 = (v1, v2) :=
                    ⟨(spanP notU r2).1, (spanP notU r2).2, rfl⟩
                  have hr2 := spanP_append_eq notU r2
                  rw [hv12] at hr2 hd4 h
                  dsimp only at hr2 hd4 h
                  have hs4 : v2 = ['_', 't', 'y', 'r', 'e'] ++ r4 :=
                    dropLit_sound _ _ _ hd4
                  have hr4 : p5.1 ++ p5.2 = r4 := digits1_sound r4 p5 hg5
                  have hs5 : p5.2 = '_' :: uJoin (q.1 ++ q.2.1 :: (q.2.2.1 ++ [q.2.2.2])) :=
                    measSearch_sound p5.2 q hq
                  rw [← h]
                  simp only [reconstructStem]
                  rw [hs0, ← hr0, hp2, ← hr2, hs4, ← hr4, hs5]
                  simp [List.append_assoc]
        · rw [if_neg hc] at h
          simp at h



/-! ## Lemmas about the h5 file model and the rename loop -/

theorem getA_of_mem {α : Type} : ∀ (l : List (String × α)) (k : String),
    k ∈ l.map Prod.fst → ∃ w, getA l k = some w := by
  intro l
  induction l with
  | nil => intro k h; simp at h
  | cons p rest ih =>
    intro k h
    by_cases hp : p.1 = k
    · exact ⟨p.2, by simp [getA, hp]⟩
    · simp only [List.map_cons, List.mem_cons] at h
      rcases h with h1 | h2
      · exact absurd h1.symm hp
      · obtain ⟨w, hw⟩ := ih k h2
        exact ⟨w, by simp [getA, hp, hw]⟩

theorem mem_keys_get {α : Type} (f : H5File α) (k : String) (h : k ∈ h5keys f) :
    ∃ w, h5get f k = some w :=
  getA_of_mem f.channels k h

theorem mem_keys_add {α : Type} (f : H5File α) (k v : String) (w : α) :
    v ∈ h5keys (h5add f k w) ↔ v ∈ h5keys f ∨ v = k := by
  simp [h5keys, h5add]

theorem mem_keys_del {α : Type} (f : H5File α) (k x : String) :
    x ∈ h5keys (h5del f k) ↔ x ∈ h5keys f ∧ ¬ x = k := by
  simp only [h5keys, h5del, List.mem_map, List.mem_filter]
  constructor
  · rintro ⟨p, ⟨hp, hq⟩, hx⟩
    subst hx
    refine ⟨⟨p, hp, rfl⟩, ?_⟩
    simpa using hq
  · rintro ⟨⟨p, hp, hx⟩, hne⟩
    subst hx
    refine ⟨p, ⟨hp, ?_⟩, rfl⟩
    simpa using hne

theorem renameStep_preserve {α : Type} (st : H5File α) (old nw x : String)
    (hne : ¬ x = old) (hx : x ∈ h5keys st) : x ∈ h5keys (renameStep st old nw) := by
  rw [renameStep]
  by_cases hm : nw ∈ h5keys st
  · rw [if_pos hm]
    exact hx
  · rw [if_neg hm]
    cases hg : h5get st old with
    | none => exact hx
    | some w =>
      rw [mem_keys_del]
      exact ⟨(mem_keys_add st nw x w).mpr (Or.inl hx), hne⟩

theorem renameStep_not_mem {α : Type} (st : H5File α) (old nw x : String)
    (hnw : ¬ nw = x) (hx : x ∉ h5keys st) : x ∉ h5keys (renameStep st old nw) := by
  rw [renameStep]
  by_cases hm : nw ∈ h5keys st
  · rw [if_pos hm]
    exact hx
  · rw [if_neg hm]
    cases hg : h5get st old with
    | none => exact hx
    | some w =>
      rw [mem_keys_del]
      rintro ⟨hmem, _⟩
      rcases (mem_keys_add st nw x w).mp hmem with h1 | h2
      · exact hx h1
      · exact hnw h2.symm

theorem renameStep_provenance {α : Type} (st : H5File α) (old nw x : String)
    (h : x ∈ h5keys (renameStep st old nw)) : x ∈ h5keys st ∨ x = nw := by
  rw [renameStep] at h
  by_cases hm : nw ∈ h5keys st
  · rw [if_pos hm] at h
    exact Or.inl h
  · rw [if_neg hm] at h
    cases hg : h5get st old with
    | none =>
      rw [hg] at h
      exact Or.inl h
    | some w =>
      rw [hg] at h
      rw [mem_keys_del] at h
      rcases (mem_keys_add st nw x w).mp h.1 with h1 | h2
      · exact Or.inl h1
      · exact Or.inr h2

theorem renameLoop_persist_mem {α : Type} (m : List (String × String)) :
    ∀ (ks : List String) (st : H5File α) (x : String),
      x ∉ ks → x ∈ h5keys st → x ∈ h5keys (renameLoop m st ks) := by
  intro ks
  induction ks with
  | nil => intro st x _ hx; exact hx
  | cons old rest ih =>
    intro st x hnx hx
    have hxo : ¬ x = old := fun he => hnx (by simp [he])
    have hxr : x ∉ rest := fun hr => hnx (by simp [hr])
    rw [renameLoop]
    cases hlo : mapLookup m old with
    | none => exact ih st x hxr hx
    | some nw => exact ih (renameStep st old nw) x hxr (renameStep_preserve st old nw x hxo hx)

theorem renameLoop_persist_not_mem {α : Type} (m : List (String × String)) :
    ∀ (ks : List String) (st : H5File α) (x : String),
      x ∉ h5keys st →
      (∀ old ∈ ks, ∀ nw, mapLookup m old = some nw → ¬ nw = x) →
      x ∉ h5keys (renameLoop m st ks) := by
  intro ks
  induction ks with
  | nil => intro st x hx _; exact hx
  | cons old rest ih =>
    intro st x hx htg
    rw [renameLoop]
    cases hlo : mapLookup m old with
    | none => exact ih st x hx (fun o ho => htg o (by simp [ho]))
    | some nw =>
      refine ih (renameStep st old nw) x ?_ (fun o ho => htg o (by simp [ho]))
      exact renameStep_not_mem st old nw x (htg old (by simp) nw hlo) hx

theorem renameLoop_provenance {α : Type} (m : List (String × String)) :
    ∀ (ks : List String) (st : H5File α) (x : String),
      x ∈ h5keys (renameLoop m st ks) →
      x ∈ h5keys st ∨ ∃ old ∈ ks, mapLookup m old = some x := by
  intro ks
  induction ks with
  | nil => intro st x hx; exact Or.inl hx
  | cons old rest ih =>
    intro st x hx
    rw [renameLoop] at hx
    cases hlo : mapLookup m old with
    | none =>
      rw [hlo] at hx
      rcases ih st x hx with h1 | ⟨o, ho, hl⟩
      · exact Or.inl h1
      · exact Or.inr ⟨o, by simp [ho], hl⟩
    | some nw =>
      rw [hlo] at hx
      rcases ih (renameStep st old nw) x hx with h1 | ⟨o, ho, hl⟩
      · rcases renameStep_provenance st old nw x h1 with h2 | h2
        · exact Or.inl h2
        · subst h2
          exact Or.inr ⟨old, by simp, hlo⟩
      · exact Or.inr ⟨o, by simp [ho], hl⟩

theorem renameLoop_id {α : Type} (m : List (String × String)) :
    ∀ (ks : List String) (st : H5File α),
      (∀ old ∈ ks, ∀ nw, mapLookup m old = some nw → nw ∈ h5keys st) →
      renameLoop m st ks = st := by
  intro ks
  induction ks with
  | nil => intro st _; rfl
  | cons old rest ih =>
    intro st htg
    rw [renameLoop]
    cases hlo : mapLookup m old with
    | none => exact ih st (fun o ho => htg o (by simp [ho]))
    | some nw =>
      have hmem : nw ∈ h5keys st := htg old (by simp) nw hlo
      have hstep : renameStep st old nw = st := by
        rw [renameStep, if_pos hmem]
      show renameLoop m (renameStep st old nw) rest = st
      rw [hstep]
      exact ih st (fun o ho => htg o (by simp [ho]))

theorem mapLookup_mem (m : List (String × String)) :
    ∀ (k v : String), mapLookup m k = some v → (k, v) ∈ m := by
  induction m with
  | nil => intro k v h; simp [mapLookup] at h
  | cons p rest ih =>
    intro k v h
    rw [mapLookup] at h
    by_cases hp : p.1 = k
    · rw [if_pos hp] at h
      simp only [Option.some.injEq] at h
      have hpv : p = (k, v) := by
        obtain ⟨p1, p2⟩ := p
        simp only at hp h
        rw [hp, h]
      rw [← hpv]
      simp
    · rw [if_neg hp] at h
      exact List.mem_cons_of_mem p (ih k v h)

theorem mem_keys_to_rename {α : Type} (f : H5File α) (m : List (String × String))
    (k : String) :
    k ∈ keys_to_rename f m ↔ k ∈ h5keys f ∧ (mapLookup m k).isSome = true := by
  simp [keys_to_rename, List.mem_filter]

theorem renameLoop_target_mem {α : Type} (m : List (String × String)) :
    ∀ (ks : List String) (st : H5File α) (k v : String),
      k ∈ ks → mapLookup m k = some v →
      (∀ p ∈ m, mapLookup m p.2 = none) →
      (∀ old ∈ ks, (mapLookup m old).isSome = true) →
      k ∈ h5keys (renameLoop m st ks) → v ∈ h5keys (renameLoop m st ks) := by
  intro ks
  induction ks with
  | nil => intro st k v hk; simp at hk
  | cons old rest ih =>
    intro st k v hk hlk hnc hall hkmem
    have hvnone : mapLookup m v = none := hnc (k, v) (mapLookup_mem m k v hlk)
    have hvnotin : v ∉ rest := by
      intro hv
      have h0 := hall v (by simp [hv])
      rw [hvnone] at h0
      simp at h0
    have hknotarget : ∀ o ∈ rest, ∀ nw, mapLookup m o = some nw → ¬ nw = k := by
      intro o _ nw hlo hek
      subst hek
      have h0 := hnc (o, nw) (mapLookup_mem m o nw hlo)
      rw [h0] at hlk
      exact Option.noConfusion hlk
    rcases List.mem_cons.mp hk with hke | hkr
    · subst hke
      simp only [renameLoop, hlk] at hkmem ⊢
      by_cases hvm : v ∈ h5keys st
      · have hstep : renameStep st k v = st := by rw [renameStep, if_pos hvm]
        rw [hstep] at hkmem ⊢
        exact renameLoop_persist_mem m rest st v hvnotin hvm
      · cases hg : h5get st k with
        | none =>
          have hstep : renameStep st k v = st := by
            rw [renameStep, if_neg hvm, hg]
          rw [hstep] at hkmem ⊢
          have hknotin : k ∉ h5keys st := by
            intro hkin
            obtain ⟨w, hw⟩ := mem_keys_get st k hkin
            rw [hw] at hg
            exact Option.noConfusion hg
          exact absurd hkmem (renameLoop_persist_not_mem m rest st k hknotin hknotarget)
        | some w =>
          have hstep : renameStep st k v = h5del (h5add st v w) k := by
            rw [renameStep, if_neg hvm, hg]
          rw [hstep] at hkmem ⊢
          have hknotin : k ∉ h5keys (h5del (h5add st v w) k) := by
            rw [mem_keys_del]
            rintro ⟨_, hne⟩
            exact hne rfl
          exact absurd hkmem
            (renameLoop_persist_not_mem m rest (h5del (h5add st v w) k) k hknotin hknotarget)
    · rw [renameLoop] at hkmem ⊢
      cases hlo : mapLookup m old with
      | none =>
        simp only [hlo] at hkmem ⊢
        exact ih st k v hkr hlk hnc (fun o ho => hall o (by simp [ho])) hkmem
      | some nw =>
        simp only [hlo] at hkmem ⊢
        exact ih (renameStep st old nw) k v hkr hlk hnc
          (fun o ho => hall o (by simp [ho])) hkmem

theorem renameLoop_creates_target {α : Type} (m : List (String × String)) :
    ∀ (ks : List String) (st : H5File α) (k v : String),
      k ∈ ks → mapLookup m k = some v → v ∉ ks → k ∈ h5keys st →
      v ∈ h5keys (renameLoop m st ks) := by
  intro ks
  induction ks with
  | nil => intro st k v hk; simp at hk
  | cons old rest ih =>
    intro st k v hk hlk hv hkst
    have hvr : v ∉ rest := fun h0 => hv (by simp [h0])
    by_cases hke : k = old
    · subst hke
      simp only [renameLoop, hlk]
      by_cases hvm : v ∈ h5keys st
      · have hstep : renameStep st k v = st := by rw [renameStep, if_pos hvm]
        rw [hstep]
        exact renameLoop_persist_mem m rest st v hvr hvm
      · obtain ⟨w, hw⟩ := mem_keys_get st k hkst
        have hvk : ¬ v = k := by
          intro he
          rw [he] at hvm
          exact hvm hkst
        have hstep : renameStep st k v = h5del (h5add st v w) k := by
          rw [renameStep, if_neg hvm, hw]
        rw [hstep]
        refine renameLoop_persist_mem m rest _ v hvr ?_
        rw [mem_keys_del]
        exact ⟨(mem_keys_add st v v w).mpr (Or.inr rfl), hvk⟩
    · have hkr : k ∈ rest := by
        rcases List.mem_cons.mp hk with h1 | h2
        · exact absurd h1 hke
        · exact h2
      rw [renameLoop]
      cases hlo : mapLookup m old with
      | none => exact ih st k v hkr hlk hvr hkst
      | some nw =>
        exact ih (renameStep st old nw) k v hkr hlk hvr
          (renameStep_preserve st old nw k hke hkst)



/-! ## Claim theorems -/

/-- C5: running the channel normalizer twice in a row with the same mapping is
idempotent: under the precondition that canonical names (mapping values) are
not themselves legacy keys of the mapping, the file after the second pass is
equal — channel set, payloads and attributes — to the file after the first
pass. -/
theorem c5_normalize_idempotent {α : Type} (f : H5File α) (m : List (String × String))
    (hm : ∀ p ∈ m, mapLookup m p.2 = none) :
    load_h5_fix_channel_names (load_h5_fix_channel_names f m) m =
      load_h5_fix_channel_names f m := by
  have key : ∀ old ∈ keys_to_rename (load_h5_fix_channel_names f m) m,
      ∀ nw, mapLookup m old = some nw →
        nw ∈ h5keys (load_h5_fix_channel_names f m) := by
    intro old ho nw hlo
    rw [mem_keys_to_rename] at ho
    obtain ⟨hog, _⟩ := ho
    have hof : old ∈ h5keys f := by
      rcases renameLoop_provenance m (keys_to_rename f m) f old hog with h1 | ⟨o, _, hl⟩
      · exact h1
      · have h0 := hm (o, old) (mapLookup_mem m o old hl)
        rw [h0] at hlo
        exact Option.noConfusion hlo
    have hoks : old ∈ keys_to_rename f m :=
      (mem_keys_to_rename f m old).mpr ⟨hof, by rw [hlo]; rfl⟩
    exact renameLoop_target_mem m (keys_to_rename f m) f old nw hoks hlo hm
      (fun o ho2 => ((mem_keys_to_rename f m o).mp ho2).2) hog
  exact renameLoop_id m (keys_to_rename (load_h5_fix_channel_names f m) m)
    (load_h5_fix_channel_names f m) key

theorem c5_witness :
    load_h5_fix_channel_names
        (load_h5_fix_channel_names (⟨[("old1", 1), ("NAWSSound", 2)]⟩ : H5File Nat)
          [("old1", "mic_iso")]) [("old1", "mic_iso")] =
      load_h5_fix_channel_names (⟨[("old1", 1), ("NAWSSound", 2)]⟩ : H5File Nat)
        [("old1", "mic_iso")] :=
  c5_normalize_idempotent _ _ (by decide)

/-- C6: for every open mode that successfully opens an existing file, the file
state h5_with_fixed_channels establishes before yielding the handle is the
channel normalizer applied to the post-open content exactly when the mode
permits writing; in particular read-only mode performs no mutation and exposes
the channels under their current names. -/
theorem c6_normalizer_iff_writable {α : Type} (disk : H5File α)
    (m : List (String × String)) (mode : String) (g : H5File α)
    (hopen : h5pyOpenContent disk mode = .ok g) :
    h5_with_fixed_channels_state disk m mode =
      .ok (if modePermitsWriting mode then load_h5_fix_channel_names g m else g) ∧
    h5_with_fixed_channels_state disk m "r" = .ok disk := by
  constructor
  · by_cases h1 : mode = "r+"
    · subst h1
      have hg : g = disk := by
        simp [h5pyOpenContent] at hopen
        exact hopen.symm
      subst hg
      simp [h5_with_fixed_channels_state, h5pyOpenContent, modePermitsWriting]
    · by_cases h2 : mode = "a"
      · subst h2
        have hg : g = disk := by
          simp [h5pyOpenContent] at hopen
          exact hopen.symm
        subst hg
        simp [h5_with_fixed_channels_state, h5pyOpenContent, modePermitsWriting]
      · by_cases h3 : mode = "r"
        · subst h3
          have hg : g = disk := by
            simp [h5pyOpenContent] at hopen
            exact hopen.symm
          subst hg
          simp [h5_with_fixed_channels_state, h5pyOpenContent, modePermitsWriting]
        · by_cases h4 : mode = "w"
          · subst h4
            have hg : g = (⟨[]⟩ : H5File α) := by
              simp [h5pyOpenContent] at hopen
              exact hopen.symm
            subst hg
            have hfix : load_h5_fix_channel_names (⟨[]⟩ : H5File α) m = ⟨[]⟩ := rfl
            simp [h5_with_fixed_channels_state, h5pyOpenContent, modePermitsWriting,
                  h1, h2, h3, hfix]
          · exfalso
            rw [h5pyOpenContent] at hopen
            rw [if_neg (by simp [h1, h2, h3]), if_neg h4] at hopen
            split at hopen <;> exact Except.noConfusion hopen
  · rfl

theorem c6_witness :
    h5_with_fixed_channels_state (⟨[("a", 7)]⟩ : H5File Nat) [("a", "b")] "r+" =
      .ok (if modePermitsWriting "r+" then
             load_h5_fix_channel_names (⟨[("a", 7)]⟩ : H5File Nat) [("a", "b")]
           else ⟨[("a", 7)]⟩) ∧
    h5_with_fixed_channels_state (⟨[("a", 7)]⟩ : H5File Nat) [("a", "b")] "r" =
      .ok ⟨[("a", 7)]⟩ :=
  c6_normalizer_iff_writable (⟨[("a", 7)]⟩ : H5File Nat) [("a", "b")] "r+"
    (⟨[("a", 7)]⟩ : H5File Nat) (by rfl)

/-- C7: a per-channel rename failure (the canonical name b of legacy key a
already exists) is caught and non-fatal: that channel is skipped and keeps its
legacy name and payload, the loop continues and still renames the remaining
legacy channel c to d, and the file is returned. -/
theorem c7_rename_failure_skipped {α : Type} (a b c d : String) (x y z : α)
    (hab : ¬ a = b) (hac : ¬ a = c) (had : ¬ a = d) (hbc : ¬ b = c) (hbd : ¬ b = d)
    (hcd : ¬ c = d) :
    load_h5_fix_channel_names (⟨[(a, x), (b, y), (c, z)]⟩ : H5File α) [(a, b), (c, d)] =
      ⟨[(a, x), (b, y), (d, z)]⟩ := by
  simp [load_h5_fix_channel_names, keys_to_rename, h5keys, mapLookup, renameLoop,
        renameStep, h5get, getA, h5add, h5del, hab, hac, had, hbc, hbd, hcd,
        Ne.symm hab, Ne.symm hac, Ne.symm had, Ne.symm hbc, Ne.symm hbd, Ne.symm hcd]

theorem c7_witness :
    load_h5_fix_channel_names
        (⟨[("Ch_1_old", 1), ("Ch_1_labV12", 2), ("NAWS", 3)]⟩ : H5File Nat)
        [("Ch_1_old", "Ch_1_labV12"), ("NAWS", "NAWSSound")] =
      ⟨[("Ch_1_old", 1), ("Ch_1_labV12", 2), ("NAWSSound", 3)]⟩ :=
  c7_rename_failure_skipped "Ch_1_old" "Ch_1_labV12" "NAWS" "NAWSSound" 1 2 3
    (by decide) (by decide) (by decide) (by decide) (by decide) (by decide)

/-- C9: whenever h5_with_fixed_channels successfully acquires a handle, the
handle is closed on every exit path of the caller's block: normal completion,
an exception raised inside the block, and an early return. -/
theorem c9_handle_closed {α β : Type} (disk : H5File α) (m : List (String × String))
    (mode : String) (body : H5File α → BodyOutcome β) (r : ScopeRun β)
    (h : h5_with_fixed_channels_run disk m mode body = .ok r) :
    r.handleClosed = true := by
  rw [h5_with_fixed_channels_run] at h
  cases hs : h5_with_fixed_channels_state disk m mode with
  | error e =>
    simp only [hs] at h
    exact Except.noConfusion h
  | ok handle =>
    simp only [hs] at h
    cases hb : body handle with
    | normal v =>
      simp only [hb, Except.ok.injEq] at h
      rw [← h]
    | raised e =>
      simp only [hb, Except.ok.injEq] at h
      rw [← h]
    | earlyReturn v =>
      simp only [hb, Except.ok.injEq] at h
      rw [← h]

theorem c9_witness :
    ({ outcome := BodyOutcome.raised "sensor missing", handleClosed := true } :
        ScopeRun Nat).handleClosed = true :=
  c9_handle_closed (⟨[]⟩ : H5File Nat) [] "r"
    (fun _ => BodyOutcome.raised "sensor missing")
    { outcome := BodyOutcome.raised "sensor missing", handleClosed := true } (by rfl)



/-- C1: the claimed MappingConflict on duplicate synonyms does not occur in the
source: the membership test checks the per-row dict d — whose keys are the two
column names — instead of syn_dict, so a synonym shared by two source rows is
silently overwritten (last-write-wins), while a synonym whose text equals a
column name raises spuriously. Both behaviors evaluated here. -/
theorem c1_mapping_conflict_not_raised :
    get_channel_mapping_dict
        [⟨"c1", some "X", none⟩, ⟨"c2", some "X", none⟩] =
      .ok [("X", "c2")] ∧
    get_channel_mapping_dict [⟨"c1", some "channel_name", none⟩] =
      .error "Key channel_name already exists." := by
  exact ⟨rfl, rfl⟩

/-- C2: the three example stems parse deterministically to the intended
records: track id, vehicle, tyre id, measure (including the _bNN suffix on a
vr measure, and the measN form with trailing qualifier tokens) and date. -/
theorem c2_parse_examples :
    parse_filename ⟨"data/track211_ID.4_tyre3_2pt6_vr45_2025-07-11_10-24-28.h5",
                    "track211_ID.4_tyre3_2pt6_vr45_2025-07-11_10-24-28"⟩ =
      .ok ⟨"data/track211_ID.4_tyre3_2pt6_vr45_2025-07-11_10-24-28.h5",
           "track211_ID.4_tyre3_2pt6_vr45_2025-07-11_10-24-28",
           "ID.4", 3, 211, "vr45", ⟨2025, 7, 11, 10, 24, 28⟩⟩ ∧
    parse_filename ⟨"data/track211_ID.4_tyre3_2pt6_vr50_b50_2025-07-11_10-41-07.h5",
                    "track211_ID.4_tyre3_2pt6_vr50_b50_2025-07-11_10-41-07"⟩ =
      .ok ⟨"data/track211_ID.4_tyre3_2pt6_vr50_b50_2025-07-11_10-41-07.h5",
           "track211_ID.4_tyre3_2pt6_vr50_b50_2025-07-11_10-41-07",
           "ID.4", 3, 211, "vr50_b50", ⟨2025, 7, 11, 10, 41, 7⟩⟩ ∧
    parse_filename ⟨"data/track150_Q8 e-tron_tyre6_meas3_2p5_1_2025-09-29_17-28-02.h5",
                    "track150_Q8 e-tron_tyre6_meas3_2p5_1_2025-09-29_17-28-02"⟩ =
      .ok ⟨"data/track150_Q8 e-tron_tyre6_meas3_2p5_1_2025-09-29_17-28-02.h5",
           "track150_Q8 e-tron_tyre6_meas3_2p5_1_2025-09-29_17-28-02",
           "Q8 e-tron", 6, 150, "meas3", ⟨2025, 9, 29, 17, 28, 2⟩⟩ := by
  exact ⟨rfl, rfl, rfl⟩

/-- C3: a stem the pattern rejects makes the parser fail with the
MalformedName error carrying the offending stem and produces no record; when
every discovered file parses, the catalog has exactly one record per file;
and construction aborts with the first parse error as soon as one file fails. -/
theorem c3_malformed_name_aborts :
    (∀ f : PathF, patternMatch f.stem.toList = none →
      parse_filename f = .error (.malformedName f.stem)) ∧
    (∀ files : List PathF, (∀ f ∈ files, ∃ rec, parse_filename f = .ok rec) →
      ∃ recs, load_data files = .ok recs ∧ recs.length = files.length) ∧
    (∀ (pre post : List PathF) (f : PathF) (e : LoadError),
      (∀ g ∈ pre, ∃ rec, parse_filename g = .ok rec) →
      parse_filename f = .error e →
      load_data (pre ++ f :: post) = .error e) := by
  refine ⟨?_, ?_, ?_⟩
  · intro f h
    have h2 : patternMatch f.stem.data = none := h
    simp [parse_filename, h2]
  · intro files h
    induction files with
    | nil => exact ⟨[], rfl, rfl⟩
    | cons f fs ih =>
      obtain ⟨rec, hrec⟩ := h f (by simp)
      obtain ⟨recs, hr, hlen⟩ := ih (fun g hg => h g (by simp [hg]))
      refine ⟨rec :: recs, ?_, by simp [hlen]⟩
      simp only [load_data, mapExcept, hrec]
      rw [show mapExcept parse_filename fs = Except.ok recs from hr]
  · intro pre post f e hpre hf
    induction pre with
    | nil =>
      simp only [List.nil_append, load_data, mapExcept, hf]
    | cons g gs ih =>
      obtain ⟨rec, hrec⟩ := hpre g (by simp)
      have hgs : mapExcept parse_filename (gs ++ f :: post) = Except.error e :=
        ih (fun g2 hg2 => hpre g2 (by simp [hg2]))
      show mapExcept parse_filename ((g :: gs) ++ f :: post) = Except.error e
      rw [List.cons_append]
      simp only [mapExcept, hrec, hgs]

theorem c3_witness :
    parse_filename ⟨"data/random_file.h5", "random_file"⟩ =
      .error (.malformedName "random_file") ∧
    load_data [⟨"data/track211_ID.4_tyre3_2pt6_vr45_2025-07-11_10-24-28.h5",
                "track211_ID.4_tyre3_2pt6_vr45_2025-07-11_10-24-28"⟩,
               ⟨"data/random_file.h5", "random_file"⟩] =
      .error (.malformedName "random_file") :=
  ⟨c3_malformed_name_aborts.1 ⟨"data/random_file.h5", "random_file"⟩ (by rfl),
   c3_malformed_name_aborts.2.2
     [⟨"data/track211_ID.4_tyre3_2pt6_vr45_2025-07-11_10-24-28.h5",
       "track211_ID.4_tyre3_2pt6_vr45_2025-07-11_10-24-28"⟩] []
     ⟨"data/random_file.h5", "random_file"⟩ (.malformedName "random_file")
     (by
       intro g hg
       simp only [List.mem_singleton] at hg
       subst hg
       exact ⟨⟨"data/track211_ID.4_tyre3_2pt6_vr45_2025-07-11_10-24-28.h5",
               "track211_ID.4_tyre3_2pt6_vr45_2025-07-11_10-24-28",
               "ID.4", 3, 211, "vr45", ⟨2025, 7, 11, 10, 24, 28⟩⟩, rfl⟩)
     (by rfl)⟩

/-- C4: the grammar is anchored on the whole stem — a successful match
reconstructs the stem exactly from its groups and the star-consumed tokens —
and on any stem assembled from track digits, a vehicle token, tyre digits,
free underscore tokens and a final two-token date, the measure group binds to
the first token after the tyre token that is a complete meas-digits or
vr-digits token, with a following b-digits token attaching to the measure
(rather than being consumed as a free token) exactly when present. -/
theorem c4_anchored_first_measure :
    (∀ (s : List Char) (r : RawMatch), patternMatch s = some r → s = reconstructStem r) ∧
    (∀ (a v b : List Char) (ts : List (List Char)) (d1 d2 : List Char) (i : Nat),
      digitsTok a = true → freeTok v = true → digitsTok b = true →
      (∀ s ∈ ts, freeTok s = true) →
      matchFmt fmtYmd d1 = true → matchFmt fmtHms d2 = true →
      i < ts.length → isMeasTok (ts.getD i []) = true →
      (∀ j, j < i → isMeasTok (ts.getD j []) = false) →
      patternMatch (stemOf a v b ts d1 d2) =
        some ⟨a, v, b, ts.take i,
              (ts.getD i []) ++
                (if isBTok (ts.getD (i + 1) []) then '_' :: ts.getD (i + 1) [] else []),
              (if isBTok (ts.getD (i + 1) []) then ts.drop (i + 2) else ts.drop (i + 1)),
              d1 ++ '_' :: d2⟩) :=
  ⟨patternMatch_sound,
   fun a v b ts d1 d2 i ha hv hb hts h1 h2 hi hm hf =>
     patternMatch_stemOf a v b ts d1 d2 i ha hv hb hts h1 h2 hi hm hf⟩

theorem c4_witness :
    ("track211_ID.4_tyre3_2pt6_vr45_2025-07-11_10-24-28").toList =
      reconstructStem ⟨("211").toList, ("ID.4").toList, ("3").toList,
                       [("2pt6").toList], ("vr45").toList, [],
                       ("2025-07-11_10-24-28").toList⟩ ∧
    patternMatch (stemOf ("211").toList ("ID.4").toList ("3").toList
        [("2pt6").toList, ("vr45").toList] ("2025-07-11").toList ("10-24-28").toList) =
      some ⟨("211").toList, ("ID.4").toList, ("3").toList, [("2pt6").toList],
            ("vr45").toList, [], ("2025-07-11_10-24-28").toList⟩ :=
  ⟨c4_anchored_first_measure.1 _ _ (by rfl),
   by
     have h0 := c4_anchored_first_measure.2 ("211").toList ("ID.4").toList ("3").toList
       [("2pt6").toList, ("vr45").toList] ("2025-07-11").toList ("10-24-28").toList 1
       (by decide) (by decide) (by decide)
       (by intro s hs; fin_cases hs <;> decide)
       (by decide) (by decide) (by decide) (by decide)
       (by
         intro j hj
         have hj0 : j = 0 := by omega
         subst hj0
         decide)
     simpa using h0⟩



theorem flatten_map_singleton (xs : List Int) :
    (xs.map (fun q => [q])).flatten = xs := by
  induction xs with
  | nil => rfl
  | cons x rest ih => simp [ih]

/-- C8: single-channel extraction: a channel stored with a two-dimensional
payload of one row — shape (1, N) — or of one-element rows — shape (N, 1) —
is returned as a flat one-dimensional sequence of length N; a sample-rate
attribute stored as a one-element array is unwrapped to a scalar; and a
missing channel yields (none, none). -/
theorem c8_extraction_shapes (disk : H5File Channel) (m : List (String × String))
    (name : String) :
    (∀ xs : List Int,
      h5get (load_h5_fix_channel_names disk m) name = some ⟨.d2 [xs], none⟩ →
      load_h5_channel disk true m name =
        .ok ⟨load_h5_fix_channel_names disk m, some (.d1 xs), none⟩ ∧
      shape0 (NDArray.d2 [xs]) = 1 ∧ shape1 (NDArray.d2 [xs]) = xs.length) ∧
    (∀ (x : Int) (xs : List Int),
      h5get (load_h5_fix_channel_names disk m) name =
          some ⟨.d2 ((x :: xs).map (fun q => [q])), none⟩ →
      load_h5_channel disk true m name =
        .ok ⟨load_h5_fix_channel_names disk m, some (.d1 (x :: xs)), none⟩ ∧
      shape0 (NDArray.d2 ((x :: xs).map (fun q => [q]))) = (x :: xs).length ∧
      shape1 (NDArray.d2 ((x :: xs).map (fun q => [q]))) = 1) ∧
    (∀ (xs : List Int) (q : Int),
      h5get (load_h5_fix_channel_names disk m) name =
          some ⟨.d1 xs, some (.array [q])⟩ →
      load_h5_channel disk true m name =
        .ok ⟨load_h5_fix_channel_names disk m, some (.d1 xs), some q⟩) ∧
    (h5get (load_h5_fix_channel_names disk m) name = none →
      load_h5_channel disk true m name =
        .ok ⟨load_h5_fix_channel_names disk m, none, none⟩) := by
  refine ⟨?_, ?_, ?_, ?_⟩
  · intro xs hget
    refine ⟨?_, rfl, rfl⟩
    simp [load_h5_channel, hget, ndim, shape0, flattenA]
  · intro x xs hget
    refine ⟨?_, by simp [shape0], by simp [shape1]⟩
    simp [load_h5_channel, hget, ndim, shape0, shape1, flattenA, flatten_map_singleton]
  · intro xs q hget
    simp [load_h5_channel, hget, ndim]
  · intro hget
    simp [load_h5_channel, hget]

theorem c8_witness :
    (load_h5_channel (⟨[("mic_iso", ⟨.d2 [[3, 4, 5]], none⟩)]⟩ : H5File Channel)
        true [] "mic_iso" =
      .ok ⟨⟨[("mic_iso", ⟨.d2 [[3, 4, 5]], none⟩)]⟩, some (.d1 [3, 4, 5]), none⟩) ∧
    (load_h5_channel (⟨[("mic_iso", ⟨.d2 [[3], [4], [5]], none⟩)]⟩ : H5File Channel)
        true [] "mic_iso" =
      .ok ⟨⟨[("mic_iso", ⟨.d2 [[3], [4], [5]], none⟩)]⟩, some (.d1 [3, 4, 5]), none⟩) ∧
    (load_h5_channel (⟨[("mic_iso", ⟨.d1 [7], some (.array [48000])⟩)]⟩ : H5File Channel)
        true [] "mic_iso" =
      .ok ⟨⟨[("mic_iso", ⟨.d1 [7], some (.array [48000])⟩)]⟩, some (.d1 [7]),
           some 48000⟩) ∧
    (load_h5_channel (⟨[("other", ⟨.d1 [7], none⟩)]⟩ : H5File Channel)
        true [] "mic_iso" =
      .ok ⟨⟨[("other", ⟨.d1 [7], none⟩)]⟩, none, none⟩) :=
  ⟨((c8_extraction_shapes (⟨[("mic_iso", ⟨.d2 [[3, 4, 5]], none⟩)]⟩ : H5File Channel)
      [] "mic_iso").1 [3, 4, 5] (by rfl)).1,
   ((c8_extraction_shapes (⟨[("mic_iso", ⟨.d2 [[3], [4], [5]], none⟩)]⟩ : H5File Channel)
      [] "mic_iso").2.1 3 [4, 5] (by rfl)).1,
   (c8_extraction_shapes (⟨[("mic_iso", ⟨.d1 [7], some (.array [48000])⟩)]⟩ : H5File Channel)
      [] "mic_iso").2.2.1 [7] 48000 (by rfl),
   (c8_extraction_shapes (⟨[("other", ⟨.d1 [7], none⟩)]⟩ : H5File Channel)
      [] "mic_iso").2.2.2 (by rfl)⟩

/-- C10 counterexample: the claim says any file whose channel names include a
legacy key of the mapping is mutated by a mere extraction; but for a file with
channels a and b and the mapping a to b, the rename of a is skipped (the
canonical name b already exists), so extraction leaves the file unchanged even
though the legacy key a is present. -/
theorem c10_counterexample_no_mutation :
    mapLookup [("a", "b")] "a" = some "b" ∧
    "a" ∈ h5keys (⟨[("a", ⟨.d1 [0], none⟩), ("b", ⟨.d1 [1], none⟩)]⟩ : H5File Channel) ∧
    load_h5_channel (⟨[("a", ⟨.d1 [0], none⟩), ("b", ⟨.d1 [1], none⟩)]⟩ : H5File Channel)
        true [("a", "b")] "b" =
      .ok ⟨⟨[("a", ⟨.d1 [0], none⟩), ("b", ⟨.d1 [1], none⟩)]⟩, some (.d1 [1]), none⟩ := by
  exact ⟨rfl, by decide, rfl⟩

/-- C10 amended: load_h5_channel always opens the file writable with the
normalizer run before reading — extraction fails on a file that cannot be
opened for writing, and the on-disk state after any successful extraction is
exactly the normalized file; the file is mutated whenever some legacy key of
the mapping is a channel name whose canonical name is not already among the
channel names. -/
theorem c10_amended_write_open_and_mutation :
    (∀ (disk : H5File Channel) (m : List (String × String)) (name : String),
      load_h5_channel disk false m name =
        .error "unable to open file, permission denied") ∧
    (∀ (disk : H5File Channel) (m : List (String × String)) (name : String)
       (res : ExtractResult),
      load_h5_channel disk true m name = .ok res →
      res.disk = load_h5_fix_channel_names disk m) ∧
    (∀ (disk : H5File Channel) (m : List (String × String)) (k v : String),
      k ∈ h5keys disk → mapLookup m k = some v → v ∉ h5keys disk →
      ¬ load_h5_fix_channel_names disk m = disk) := by
  refine ⟨?_, ?_, ?_⟩
  · intro disk m name
    rfl
  · intro disk m name res h
    rw [load_h5_channel] at h
    simp only [Bool.not_true, Bool.false_eq_true, if_false] at h
    cases hg : h5get (load_h5_fix_channel_names disk m) name with
    | none =>
      simp only [hg, Except.ok.injEq] at h
      rw [← h]
    | some ch =>
      simp only [hg] at h
      cases hr : ch.sample_rate with
      | none =>
        simp only [hr, Except.ok.injEq] at h
        rw [← h]
      | some ra =>
        cases ra with
        | scalar rr =>
          simp only [hr, Except.ok.injEq] at h
          rw [← h]
        | array xs =>
          simp only [hr] at h
          cases xs with
          | nil => simp at h
          | cons x rest =>
            cases rest with
            | nil =>
              simp only [Except.ok.injEq] at h
              rw [← h]
            | cons y rest2 => simp at h
  · intro disk m k v hk hlk hv
    intro he
    have hkks : k ∈ keys_to_rename disk m :=
      (mem_keys_to_rename disk m k).mpr ⟨hk, by rw [hlk]; rfl⟩
    have hvks : v ∉ keys_to_rename disk m := by
      intro h0
      exact hv ((mem_keys_to_rename disk m v).mp h0).1
    have hvfix : v ∈ h5keys (load_h5_fix_channel_names disk m) :=
      renameLoop_creates_target m (keys_to_rename disk m) disk k v hkks hlk hvks hk
    rw [he] at hvfix
    exact hv hvfix

theorem c10_amended_witness :
    load_h5_channel (⟨[("a", ⟨.d1 [0], none⟩)]⟩ : H5File Channel) false [] "a" =
      .error "unable to open file, permission denied" ∧
    (⟨⟨[("b", ⟨.d1 [0], none⟩)]⟩, some (.d1 [0]), none⟩ : ExtractResult).disk =
      load_h5_fix_channel_names (⟨[("a", ⟨.d1 [0], none⟩)]⟩ : H5File Channel)
        [("a", "b")] ∧
    ¬ load_h5_fix_channel_names (⟨[("a", ⟨.d1 [0], none⟩)]⟩ : H5File Channel)
        [("a", "b")] =
      (⟨[("a", ⟨.d1 [0], none⟩)]⟩ : H5File Channel) :=
  ⟨c10_amended_write_open_and_mutation.1 (⟨[("a", ⟨.d1 [0], none⟩)]⟩ : H5File Channel)
     [] "a",
   c10_amended_write_open_and_mutation.2.1 (⟨[("a", ⟨.d1 [0], none⟩)]⟩ : H5File Channel)
     [("a", "b")] "b" ⟨⟨[("b", ⟨.d1 [0], none⟩)]⟩, some (.d1 [0]), none⟩ (by rfl),
   c10_amended_write_open_and_mutation.2.2 (⟨[("a", ⟨.d1 [0], none⟩)]⟩ : H5File Channel)
     [("a", "b")] "a" "b" (by decide) (by rfl) (by decide)⟩

end Roar
